import Mathlib

/-!
# Colour-space conversions and diverging colour maps

A shallow embedding of `src/libcolormap/colormap.h` (RGB, XYZ, CIELAB and MSH
conversions, the hue adjustment helper and the `Diverging` colour map) together
with theorems about it.

Modelling conventions.

* `double` is modelled by the real numbers: every statement below is a statement
  about exact real arithmetic, not about IEEE rounding.
* The `<cmath>` functions are the total real functions of Mathlib: `std.pow` is the
  real power function (it agrees with the C function on a positive base and, by
  `Real.rpow_natCast`, on every base when the exponent is the integer 3), `std.sqrt` is
  the real square root, `std.acos` the arc cosine, and `std.atan2 y x` is the argument
  of the complex number `x + y i` (in `(-pi, pi]`, and `0` at the origin).
* Division is the total division of a field (`x / 0 = 0`); the theorems that depend on
  a quotient carry the hypotheses that keep its denominator away from zero.
* A C++ local variable that is assigned several times becomes a sequence of shadowing
  `let` bindings, in the order of the source.
-/

noncomputable section

/-! ## `<cmath>` and `<algorithm>` -/

namespace std

/-- The function `std::pow` on doubles, as the real power function. -/
def pow (x y : ℝ) : ℝ := x ^ y

/-- The function `std::sqrt`. -/
def sqrt (x : ℝ) : ℝ := Real.sqrt x

/-- The function `std::acos`. -/
def acos (x : ℝ) : ℝ := Real.arccos x

/-- The function `std::atan2 (y, x)`: the angle of the point `(x, y)`. -/
def atan2 (y x : ℝ) : ℝ := Complex.arg ⟨x, y⟩

/-- The function `std::cos`. -/
def cos (x : ℝ) : ℝ := Real.cos x

/-- The function `std::sin`. -/
def sin (x : ℝ) : ℝ := Real.sin x

/-- The function `std::max (a, b)`, which is `(a < b) ? b : a`. -/
def max (a b : ℝ) : ℝ := if a < b then b else a

/-- The function `std::min (a, b)`, which is `(b < a) ? b : a`. -/
def min (a b : ℝ) : ℝ := if b < a then b else a

end std

/-! ## Definitions (colormap.h, lines 23 to 82) -/

/-- Reference white, X component (`#define REF_X`). -/
def REF_X : ℝ := 0.95047

/-- Reference white, Y component (`#define REF_Y`). -/
def REF_Y : ℝ := 1.000

/-- Reference white, Z component (`#define REF_Z`). -/
def REF_Z : ℝ := 1.08883

/-- The constant `M_PI` of `<cmath>`. -/
def M_PI : ℝ := Real.pi

/-- The struct `XYZ`. -/
structure XYZ where
  _x : ℝ
  _y : ℝ
  _z : ℝ

/-- The struct `RGB`. -/
structure RGB where
  _r : ℝ
  _g : ℝ
  _b : ℝ

/-- The struct `CIELAB`. -/
structure CIELAB where
  _l : ℝ
  _a : ℝ
  _b : ℝ

/-- The struct `MSH`. -/
structure MSH where
  _m : ℝ
  _s : ℝ
  _h : ℝ

/-! ## Implementations XYZ (lines 86 to 152) -/

/-- The method `XYZ::toRGB` (lines 86 to 122). The three statements
`std::max(0.0, r); std::max(0.0, g); std::max(0.0, b);` of lines 117 to 119 discard
their results, so they do not appear in the returned value. -/
def XYZ.toRGB (p : XYZ) : RGB :=
  let r := p._x * 3.24063 + p._y * -1.53721 + p._z * -0.498629
  let g := p._x * -0.968931 + p._y * 1.87576 + p._z * 0.0415175
  let b := p._x * 0.0557101 + p._y * -0.204021 + p._z * 1.0570
  let r := if r > 0.0031308 then 1.055 * std.pow r (1.0/2.4) - 0.055 else r * 12.92
  let g := if g > 0.0031308 then 1.055 * std.pow g (1.0/2.4) - 0.055 else g * 12.92
  let b := if b > 0.0031308 then 1.055 * std.pow b (1.0/2.4) - 0.055 else b * 12.92
  let max := std.max r (std.max g b)
  if max > 1.0 then ⟨r / max, g / max, b / max⟩ else ⟨r, g, b⟩

/-- The method `XYZ::toCIELAB` (lines 124 to 152). -/
def XYZ.toCIELAB (p : XYZ) : CIELAB :=
  let x := p._x / REF_X
  let y := p._y / REF_Y
  let z := p._z / REF_Z
  let x := if x > 0.008856 then std.pow x (1.0/3.0) else (7.787 * x) + (16.0 / 116.0)
  let y := if y > 0.008856 then std.pow y (1.0/3.0) else (7.787 * y) + (16.0 / 116.0)
  let z := if z > 0.008856 then std.pow z (1.0/3.0) else (7.787 * z) + (16.0 / 116.0)
  let l := (116.0 * y) - 16.0
  let a := 500.0 * (x - y)
  let b := 200.0 * (y - z)
  ⟨l, a, b⟩

/-! ## Implementations CIELAB (lines 209 to 249) -/

/-- The method `CIELAB::toXYZ` (lines 209 to 236). -/
def CIELAB.toXYZ (c : CIELAB) : XYZ :=
  let y := (c._l + 16.0) / 116.0
  let x := c._a / 500.0 + y
  let z := y - c._b / 200.0
  let y := if std.pow y 3.0 > 0.008856 then std.pow y 3.0 else (y - 16.0 / 116.0) / 7.787
  let x := if std.pow x 3.0 > 0.008856 then std.pow x 3.0 else (x - 16.0 / 116.0) / 7.787
  let z := if std.pow z 3.0 > 0.008856 then std.pow z 3.0 else (z - 16.0 / 116.0) / 7.787
  let x := x * REF_X
  let y := y * REF_Y
  let z := z * REF_Z
  ⟨x, y, z⟩

/-- The method `CIELAB::toMSH` (lines 238 to 249). -/
def CIELAB.toMSH (c : CIELAB) : MSH :=
  let m := std.sqrt (c._l * c._l + c._a * c._a + c._b * c._b)
  let s := if m > 0.001 then std.acos (c._l / m) else 0.0
  let h := if s > 0.001 then std.atan2 c._b c._a else 0.0
  ⟨m, s, h⟩

/-! ## Implementations RGB (lines 163 to 198) -/

/-- The method `RGB::toXYZ` (lines 163 to 193). -/
def RGB.toXYZ (c : RGB) : XYZ :=
  let r := c._r
  let g := c._g
  let b := c._b
  let r := if r > 0.04045 then std.pow ((r + 0.055) / 1.055) 2.4 else r / 12.92
  let g := if g > 0.04045 then std.pow ((g + 0.055) / 1.055) 2.4 else g / 12.92
  let b := if b > 0.04045 then std.pow ((b + 0.055) / 1.055) 2.4 else b / 12.92
  let x := r * 0.4124 + g * 0.3576 + b * 0.1805
  let y := r * 0.2126 + g * 0.7152 + b * 0.0722
  let z := r * 0.0193 + g * 0.1192 + b * 0.9505
  ⟨x, y, z⟩

/-- The method `RGB::toMSH` (lines 195 to 198). -/
def RGB.toMSH (c : RGB) : MSH :=
  c.toXYZ.toCIELAB.toMSH

/-! ## Implementations MSH (lines 261 to 275) -/

/-- The method `MSH::toCIELAB` (lines 261 to 270). -/
def MSH.toCIELAB (p : MSH) : CIELAB :=
  let l := p._m * std.cos p._s
  let a := p._m * std.sin p._s * std.cos p._h
  let b := p._m * std.sin p._s * std.sin p._h
  ⟨l, a, b⟩

/-- The method `MSH::toRGB` (lines 272 to 275). -/
def MSH.toRGB (p : MSH) : RGB :=
  p.toCIELAB.toXYZ.toRGB

/-! ## Helper functions (lines 282 to 299) -/

/-- The function `adjustHue` (lines 285 to 299): an adjusted hue when interpolating to
an unsaturated colour in MSH space. -/
def adjustHue (msh : MSH) (unsaturatdM : ℝ) : ℝ :=
  if msh._m >= unsaturatdM then msh._h
  else
    let hSpin := (msh._s * std.sqrt (unsaturatdM * unsaturatdM - msh._m * msh._m))
      / (msh._m * std.sin msh._s)
    if msh._h > -M_PI / 3.0 then msh._h + hSpin else msh._h - hSpin

/-! ## The struct `Diverging` (lines 307 to 392) -/

/-- The struct `Diverging`: two stored end points and the data range. -/
structure Diverging where
  _low : MSH
  _high : MSH
  _min : ℝ
  _max : ℝ
  _midPoint : ℝ

namespace Diverging

/-- The constructor `Diverging (min, max)` (lines 312 to 315). The members `_low` and
`_high` are left uninitialised by the source; `low0` and `high0` stand for whatever they
hold. -/
def init (min max : ℝ) (low0 high0 : MSH) : Diverging :=
  { _low := low0, _high := high0, _min := min, _max := max, _midPoint := (max + min) / 2.0 }

/-- The method `setLow` (lines 318 to 323). -/
def setLow (d : Diverging) (r g b : ℝ) : Diverging :=
  let rgb : RGB := ⟨r, g, b⟩
  { d with _low := rgb.toMSH }

/-- The method `setHigh` (lines 326 to 331). -/
def setHigh (d : Diverging) (r g b : ℝ) : Diverging :=
  let rgb : RGB := ⟨r, g, b⟩
  { d with _high := rgb.toMSH }

/-- The method `setMidpoint` (lines 334 to 338). -/
def setMidpoint (d : Diverging) (midpoint : ℝ) : Diverging :=
  { d with _midPoint := midpoint }

/-- The method `colormap` (lines 344 to 387). The pair `lh` holds the locals `low` and
`high` after each of the two conditional blocks that assign to them. -/
def colormap (d : Diverging) (value : ℝ) : RGB :=
  let low := d._low
  let high := d._high
  let lh : MSH × MSH :=
    if low._s > 0.05 ∧ high._s > 0.05 then
      let mMid := std.max 88.0 (std.max d._low._m d._high._m)
      if value < d._midPoint then (low, ⟨mMid, 0.0, 0.0⟩)
      else (⟨mMid, 0.0, 0.0⟩, high)
    else (low, high)
  let low := lh.1
  let high := lh.2
  let lh : MSH × MSH :=
    if low._s < 0.05 ∧ high._s > 0.05 then
      (⟨low._m, low._s, adjustHue high low._m⟩, high)
    else if high._s < 0.05 ∧ low._s > 0.05 then
      (low, ⟨high._m, high._s, adjustHue low high._m⟩)
    else (low, high)
  let low := lh.1
  let high := lh.2
  let value :=
    if value < d._midPoint then (value - d._min) / (d._midPoint - d._min)
    else (value - d._midPoint) / (d._max - d._midPoint)
  let value := std.max 0.0 (std.min 1.0 value)
  let result : MSH :=
    ⟨value * high._m + (1.0 - value) * low._m,
     value * high._s + (1.0 - value) * low._s,
     value * high._h + (1.0 - value) * low._h⟩
  result.toRGB

/-- The clamped blend factor of `colormap` (lines 373 to 378): the value of the local
`value` after normalisation and clamping. -/
def norm (d : Diverging) (value : ℝ) : ℝ :=
  let value :=
    if value < d._midPoint then (value - d._min) / (d._midPoint - d._min)
    else (value - d._midPoint) / (d._max - d._midPoint)
  std.max 0.0 (std.min 1.0 value)

/-- The control points of `colormap` (lines 347 to 371): the locals `low` and `high`
after saturation levelling and hue adjustment, as a function of the outcome `below` of
the test `value < _midPoint`. -/
def controlPoints (d : Diverging) (below : Bool) : MSH × MSH :=
  let low := d._low
  let high := d._high
  let lh : MSH × MSH :=
    if low._s > 0.05 ∧ high._s > 0.05 then
      let mMid := std.max 88.0 (std.max d._low._m d._high._m)
      if below then (low, ⟨mMid, 0.0, 0.0⟩)
      else (⟨mMid, 0.0, 0.0⟩, high)
    else (low, high)
  let low := lh.1
  let high := lh.2
  if low._s < 0.05 ∧ high._s > 0.05 then
    (⟨low._m, low._s, adjustHue high low._m⟩, high)
  else if high._s < 0.05 ∧ low._s > 0.05 then
    (low, ⟨high._m, high._s, adjustHue low high._m⟩)
  else (low, high)

/-- The interpolation of `colormap` (lines 381 to 384). -/
def interpolate (low high : MSH) (value : ℝ) : MSH :=
  ⟨value * high._m + (1.0 - value) * low._m,
   value * high._s + (1.0 - value) * low._s,
   value * high._h + (1.0 - value) * low._h⟩

/-- The colour that `colormap` produces on the branch selected by `below` (the outcome
of `value < _midPoint`) when the clamped blend factor is `t`. -/
def branchColour (d : Diverging) (below : Bool) (t : ℝ) : RGB :=
  (interpolate (d.controlPoints below).1 (d.controlPoints below).2 t).toRGB

end Diverging

/-! ## Auxiliary definitions used in the statements -/

/-- The gamma encoding that `XYZ::toRGB` applies to each channel (lines 94 to 107). -/
def gammaEncode (c : ℝ) : ℝ :=
  if c > 0.0031308 then 1.055 * std.pow c (1.0/2.4) - 0.055 else c * 12.92

/-- The gamma decoding that `RGB::toXYZ` applies to each channel (lines 171 to 184). -/
def gammaDecode (c : ℝ) : ℝ :=
  if c > 0.04045 then std.pow ((c + 0.055) / 1.055) 2.4 else c / 12.92

/-- The piecewise function that `XYZ::toCIELAB` applies to each axis (lines 131 to 144). -/
def labForward (t : ℝ) : ℝ :=
  if t > 0.008856 then std.pow t (1.0/3.0) else (7.787 * t) + (16.0 / 116.0)

/-- The piecewise function that `CIELAB::toXYZ` applies to each axis (lines 216 to 229). -/
def labInverse (t : ℝ) : ℝ :=
  if std.pow t 3.0 > 0.008856 then std.pow t 3.0 else (t - 16.0 / 116.0) / 7.787

/-- The overflow step of `XYZ::toRGB` (lines 110 to 116) on encoded channels. -/
def scaleDown (r g b : ℝ) : RGB :=
  if std.max r (std.max g b) > 1.0 then
    ⟨r / std.max r (std.max g b), g / std.max r (std.max g b), b / std.max r (std.max g b)⟩
  else ⟨r, g, b⟩

/-- The gamma-encoded channels of `XYZ::toRGB` before the overflow step (lines 88 to
107): the values of the locals `r`, `g`, `b` when line 110 is reached. -/
def XYZ.encoded (p : XYZ) : RGB :=
  let r := p._x * 3.24063 + p._y * -1.53721 + p._z * -0.498629
  let g := p._x * -0.968931 + p._y * 1.87576 + p._z * 0.0415175
  let b := p._x * 0.0557101 + p._y * -0.204021 + p._z * 1.0570
  let r := if r > 0.0031308 then 1.055 * std.pow r (1.0/2.4) - 0.055 else r * 12.92
  let g := if g > 0.0031308 then 1.055 * std.pow g (1.0/2.4) - 0.055 else g * 12.92
  let b := if b > 0.0031308 then 1.055 * std.pow b (1.0/2.4) - 0.055 else b * 12.92
  ⟨r, g, b⟩

/-- The locals `low` and `high` of `colormap` after saturation levelling (lines 347 to
365), as a function of the outcome `below` of the test `value < _midPoint`. -/
def Diverging.levelled (d : Diverging) (below : Bool) : MSH × MSH :=
  let low := d._low
  let high := d._high
  if low._s > 0.05 ∧ high._s > 0.05 then
    let mMid := std.max 88.0 (std.max d._low._m d._high._m)
    if below then (low, ⟨mMid, 0.0, 0.0⟩)
    else (⟨mMid, 0.0, 0.0⟩, high)
  else (low, high)

/-- The arguments of the call to `adjustHue` that `colormap` makes (lines 368 to 371),
if it makes one: `adjustHue(high, low._m)` on the first branch, `adjustHue(low, high._m)`
on the second, and no call otherwise. -/
def Diverging.adjustHueCall (d : Diverging) (below : Bool) : Option (MSH × ℝ) :=
  let low := (d.levelled below).1
  let high := (d.levelled below).2
  if low._s < 0.05 ∧ high._s > 0.05 then some (high, low._m)
  else if high._s < 0.05 ∧ low._s > 0.05 then some (low, high._m)
  else none

/-- A sample evaluator on the domain `[0, 2]` with midpoint `1`. -/
def sampleMap (low high : MSH) : Diverging :=
  { _low := low, _high := high, _min := 0, _max := 2, _midPoint := 1 }

/-! ## Basic facts about the embedding -/

theorem std_max_eq (a b : ℝ) : std.max a b = max a b := by
  unfold std.max
  split_ifs with h
  · exact (max_eq_right h.le).symm
  · exact (max_eq_left (not_lt.mp h)).symm

theorem std_min_eq (a b : ℝ) : std.min a b = min a b := by
  unfold std.min
  split_ifs with h
  · exact (min_eq_right h.le).symm
  · exact (min_eq_left (not_lt.mp h)).symm

/-- The method `colormap` is the branch colour of the branch its input selects, at the
clamped blend factor `norm`. -/
theorem Diverging.colormap_eq_branchColour (d : Diverging) (value : ℝ) :
    d.colormap value = d.branchColour (decide (value < d._midPoint)) (d.norm value) := by
  unfold Diverging.colormap Diverging.branchColour Diverging.controlPoints
    Diverging.interpolate Diverging.norm
  by_cases hv : value < d._midPoint
  · simp only [hv, if_true, decide_True]
  · simp only [hv, if_false, decide_False, Bool.false_eq_true]

/-! ## The conversion graph -/

theorem XYZ.toRGB_eq (p : XYZ) :
    p.toRGB = scaleDown
      (gammaEncode (p._x * 3.24063 + p._y * -1.53721 + p._z * -0.498629))
      (gammaEncode (p._x * -0.968931 + p._y * 1.87576 + p._z * 0.0415175))
      (gammaEncode (p._x * 0.0557101 + p._y * -0.204021 + p._z * 1.0570)) := rfl

theorem XYZ.toCIELAB_eq (p : XYZ) :
    p.toCIELAB = ⟨116.0 * labForward (p._y / REF_Y) - 16.0,
      500.0 * (labForward (p._x / REF_X) - labForward (p._y / REF_Y)),
      200.0 * (labForward (p._y / REF_Y) - labForward (p._z / REF_Z))⟩ := rfl

theorem CIELAB.toXYZ_axes (c : CIELAB) :
    c.toXYZ = ⟨labInverse (c._a / 500.0 + (c._l + 16.0) / 116.0) * REF_X,
      labInverse ((c._l + 16.0) / 116.0) * REF_Y,
      labInverse ((c._l + 16.0) / 116.0 - c._b / 200.0) * REF_Z⟩ := rfl

theorem RGB.toXYZ_channels (c : RGB) :
    c.toXYZ = ⟨gammaDecode c._r * 0.4124 + gammaDecode c._g * 0.3576 + gammaDecode c._b * 0.1805,
      gammaDecode c._r * 0.2126 + gammaDecode c._g * 0.7152 + gammaDecode c._b * 0.0722,
      gammaDecode c._r * 0.0193 + gammaDecode c._g * 0.1192 + gammaDecode c._b * 0.9505⟩ := rfl

theorem std_pow_three (t : ℝ) : std.pow t 3.0 = t ^ 3 := by
  unfold std.pow
  have h : (3.0 : ℝ) = ((3 : ℕ) : ℝ) := by norm_num
  rw [h, Real.rpow_natCast]

theorem labInverse_eq (t : ℝ) :
    labInverse t = if t ^ 3 > 0.008856 then t ^ 3 else (t - 16 / 116) / 7.787 := by
  unfold labInverse
  rw [std_pow_three]
  norm_num

/-- The cube of the cube root: the inverse branch test sees the forward argument. -/
theorem cbrt_pow_three (t : ℝ) (ht : 0 ≤ t) : (std.pow t (1.0/3.0)) ^ 3 = t := by
  unfold std.pow
  rw [← Real.rpow_natCast, ← Real.rpow_mul ht]
  norm_num

/-- The per-axis functions of `XYZ::toCIELAB` and `CIELAB::toXYZ` are inverse. -/
theorem labInverse_labForward (t : ℝ) : labInverse (labForward t) = t := by
  rw [labInverse_eq]
  unfold labForward
  by_cases h : t > 0.008856
  · have ht : 0 ≤ t := by
      have : (0 : ℝ) ≤ 0.008856 := by norm_num
      linarith
    rw [if_pos h, cbrt_pow_three t ht, if_pos h]
  · rw [if_neg h]
    have h1 : 7.787 * t + 16.0 / 116.0 ≤ 7.787 * 0.008856 + 16.0 / 116.0 := by
      have := not_lt.mp h
      linarith
    have h2 : (7.787 * t + 16.0 / 116.0) ^ 3 ≤ (7.787 * 0.008856 + 16.0 / 116.0 : ℝ) ^ 3 :=
      (Odd.strictMono_pow (by decide : Odd 3)).monotone h1
    have h3 : (7.787 * 0.008856 + 16.0 / 116.0 : ℝ) ^ 3 ≤ 0.008856 := by norm_num
    rw [if_neg (not_lt.mpr (le_trans h2 h3))]
    norm_num

theorem lab_axis_y (fy : ℝ) : (116.0 * fy - 16.0 + 16.0) / 116.0 = fy := by
  norm_num

theorem lab_axis_x (fx fy : ℝ) : 500.0 * (fx - fy) / 500.0 + fy = fx := by
  norm_num

theorem lab_axis_z (fy fz : ℝ) : fy - 200.0 * (fy - fz) / 200.0 = fz := by
  norm_num

/-- The conversion to CIELAB followed by the conversion back is the identity. -/
theorem XYZ.toXYZ_toCIELAB (p : XYZ) : p.toCIELAB.toXYZ = p := by
  cases p with
  | mk x y z =>
    simp only [XYZ.toCIELAB_eq, CIELAB.toXYZ_axes, lab_axis_y, lab_axis_x, lab_axis_z,
      labInverse_labForward]
    congr 1
    · norm_num [REF_X]
    · norm_num [REF_Y]
    · norm_num [REF_Z]

/-- C9. The method `CIELAB::toXYZ` undoes `XYZ::toCIELAB` exactly, on every input: on
each axis the inverse branch test selects the branch that undoes the forward one. -/
theorem toXYZ_inverts_toCIELAB (p : XYZ) : p.toCIELAB.toXYZ = p :=
  p.toXYZ_toCIELAB

/-- The polar transform is undone exactly outside the two near-zero guards. -/
theorem CIELAB.toCIELAB_toMSH (c : CIELAB)
    (hm : 0.001 < std.sqrt (c._l * c._l + c._a * c._a + c._b * c._b))
    (hs : 0.001 < std.acos (c._l / std.sqrt (c._l * c._l + c._a * c._a + c._b * c._b))) :
    c.toMSH.toCIELAB = c := by
  cases c with
  | mk l a b =>
    simp only [std.sqrt, std.acos] at hm hs
    have hm' : Real.sqrt (l * l + a * a + b * b) > 0.001 := hm
    have hs' : Real.arccos (l / Real.sqrt (l * l + a * a + b * b)) > 0.001 := hs
    simp only [CIELAB.toMSH, MSH.toCIELAB, std.sqrt, std.acos, std.atan2, std.cos, std.sin,
      if_pos hm', if_pos hs']
    set m := Real.sqrt (l * l + a * a + b * b) with hmdef
    have hm0 : 0 < m := lt_trans (by norm_num) hm
    have hsq : m ^ 2 = l * l + a * a + b * b := by
      rw [hmdef, Real.sq_sqrt]
      nlinarith [mul_self_nonneg l, mul_self_nonneg a, mul_self_nonneg b]
    have hlm : |l| ≤ m := by
      apply abs_le_of_sq_le_sq _ hm0.le
      nlinarith [sq_nonneg a, sq_nonneg b]
    have hl1 : -1 ≤ l / m := by
      rw [le_div_iff₀ hm0]
      have := neg_abs_le l
      linarith
    have hl2 : l / m ≤ 1 := by
      rw [div_le_one hm0]
      exact le_trans (le_abs_self l) hlm
    have hcos : m * Real.cos (Real.arccos (l / m)) = l := by
      rw [Real.cos_arccos hl1 hl2]
      field_simp
    have hsin : m * Real.sin (Real.arccos (l / m)) = Complex.abs ⟨a, b⟩ := by
      rw [Real.sin_arccos, Complex.abs_apply, Complex.normSq_mk,
        ← Real.sqrt_sq hm0.le, ← Real.sqrt_mul (sq_nonneg m), Real.sqrt_sq hm0.le]
      congr 1
      field_simp
      nlinarith
    have ha : m * Real.sin (Real.arccos (l / m)) * Real.cos (Complex.arg ⟨a, b⟩) = a := by
      rw [hsin]
      exact Complex.abs_mul_cos_arg ⟨a, b⟩
    have hb : m * Real.sin (Real.arccos (l / m)) * Real.sin (Complex.arg ⟨a, b⟩) = b := by
      rw [hsin]
      exact Complex.abs_mul_sin_arg ⟨a, b⟩
    rw [hcos, ha, hb]

/-- C10. Outside the two near-zero guards `MSH::toCIELAB` undoes `CIELAB::toMSH`
exactly. -/
theorem toCIELAB_inverts_toMSH (c : CIELAB)
    (hm : 0.001 < std.sqrt (c._l * c._l + c._a * c._a + c._b * c._b))
    (hs : 0.001 < std.acos (c._l / std.sqrt (c._l * c._l + c._a * c._a + c._b * c._b))) :
    c.toMSH.toCIELAB = c :=
  c.toCIELAB_toMSH hm hs

theorem sqrt_sample : std.sqrt ((0 : ℝ) * 0 + 1 * 1 + 0 * 0) = 1 := by
  simp [std.sqrt]

theorem toCIELAB_inverts_toMSH_witness :
    0.001 < std.sqrt ((⟨0, 1, 0⟩ : CIELAB)._l * (⟨0, 1, 0⟩ : CIELAB)._l
      + (⟨0, 1, 0⟩ : CIELAB)._a * (⟨0, 1, 0⟩ : CIELAB)._a
      + (⟨0, 1, 0⟩ : CIELAB)._b * (⟨0, 1, 0⟩ : CIELAB)._b) ∧
    0.001 < std.acos ((⟨0, 1, 0⟩ : CIELAB)._l
      / std.sqrt ((⟨0, 1, 0⟩ : CIELAB)._l * (⟨0, 1, 0⟩ : CIELAB)._l
        + (⟨0, 1, 0⟩ : CIELAB)._a * (⟨0, 1, 0⟩ : CIELAB)._a
        + (⟨0, 1, 0⟩ : CIELAB)._b * (⟨0, 1, 0⟩ : CIELAB)._b)) ∧
    (⟨0, 1, 0⟩ : CIELAB).toMSH.toCIELAB = ⟨0, 1, 0⟩ :=
  ⟨by simp only [sqrt_sample]; norm_num,
    by
      simp only [sqrt_sample, std.acos]
      norm_num
      have := Real.pi_gt_three
      linarith,
    toCIELAB_inverts_toMSH ⟨0, 1, 0⟩ (by simp only [sqrt_sample]; norm_num)
      (by
        simp only [sqrt_sample, std.acos]
        norm_num
        have := Real.pi_gt_three
        linarith)⟩

theorem labInverse_of_le (t : ℝ) (ht : t ≤ 0.2) : labInverse t = (t - 16 / 116) / 7.787 := by
  rw [labInverse_eq]
  have h2 : t ^ 3 ≤ (0.2 : ℝ) ^ 3 := (Odd.strictMono_pow (by decide : Odd 3)).monotone ht
  have h3 : (0.2 : ℝ) ^ 3 ≤ 0.008856 := by norm_num
  rw [if_neg (not_lt.mpr (le_trans h2 h3))]

theorem gammaEncode_of_le (c : ℝ) (hc : c ≤ 0.0031308) : gammaEncode c = c * 12.92 := by
  unfold gammaEncode
  rw [if_neg (not_lt.mpr hc)]

theorem scaleDown_of_le (r g b : ℝ) (hr : r ≤ 1) (hg : g ≤ 1) (hb : b ≤ 1) :
    scaleDown r g b = ⟨r, g, b⟩ := by
  unfold scaleDown
  have h : ¬ std.max r (std.max g b) > 1.0 := by
    rw [std_max_eq, std_max_eq]
    norm_num
    exact ⟨hr, hg, hb⟩
  rw [if_neg h]

/-- The red channel of a very dark, nearly neutral colour: every branch of the
conversion chain is the linear one. -/
theorem toRGB_r_of_dark (l a : ℝ) (hl1 : 0.99 ≤ l) (hl2 : l ≤ 1) (ha1 : -0.04 ≤ a)
    (ha2 : a ≤ 0.04) :
    (CIELAB.toXYZ ⟨l, a, 0⟩).toRGB._r
      = ((a / 500 + l / 116) / 7.787 * 0.95047 * 3.24063 + l / 116 / 7.787 * -1.53721
          + l / 116 / 7.787 * 1.08883 * -0.498629) * 12.92 := by
  have hy : labInverse ((l + 16.0) / 116.0) = l / 116 / 7.787 := by
    rw [labInverse_of_le _ (by norm_num; linarith)]
    norm_num
    ring
  have hx : labInverse (a / 500.0 + (l + 16.0) / 116.0) = (a / 500 + l / 116) / 7.787 := by
    rw [labInverse_of_le _ (by norm_num; linarith)]
    norm_num
    ring
  have hz : labInverse ((l + 16.0) / 116.0 - 0 / 200.0) = l / 116 / 7.787 := by
    rw [labInverse_of_le _ (by norm_num; linarith)]
    norm_num
    ring
  rw [CIELAB.toXYZ_axes, XYZ.toRGB_eq]
  simp only [hx, hy, hz, REF_X, REF_Y, REF_Z]
  rw [gammaEncode_of_le _ (by norm_num; linarith), gammaEncode_of_le _ (by norm_num; linarith),
    gammaEncode_of_le _ (by norm_num; linarith),
    scaleDown_of_le _ _ _ (by norm_num; linarith) (by norm_num; linarith)
      (by norm_num; linarith)]
  norm_num

theorem cos_small_bounds : 0.99 ≤ Real.cos 0.04 ∧ Real.cos 0.04 ≤ 1 := by
  refine ⟨?_, Real.cos_le_one _⟩
  have h := @Real.one_sub_sq_div_two_le_cos 0.04
  have h2 : (0.99 : ℝ) ≤ 1 - 0.04 ^ 2 / 2 := by norm_num
  linarith

theorem sin_small_bounds : 0 < Real.sin 0.04 ∧ Real.sin 0.04 ≤ 0.04 := by
  constructor
  · apply Real.sin_pos_of_pos_of_lt_pi (by norm_num)
    have := Real.pi_gt_three
    have h2 : (0.04 : ℝ) < 3 := by norm_num
    linarith
  · exact Real.sin_le (by norm_num)

/-- Two stored colours of saturation `0.04` that differ in hue only convert to
different RGB colours. -/
theorem toRGB_hue_matters :
    (⟨1, 0.04, 0⟩ : MSH).toRGB ≠ (⟨1, 0.04, Real.pi⟩ : MSH).toRGB := by
  obtain ⟨hc1, hc2⟩ := cos_small_bounds
  obtain ⟨hs1, hs2⟩ := sin_small_bounds
  intro h
  have hr := congrArg RGB._r h
  simp only [MSH.toRGB, MSH.toCIELAB, std.cos, std.sin, Real.cos_zero, Real.sin_zero,
    Real.cos_pi, Real.sin_pi, one_mul, mul_one, mul_zero, mul_neg] at hr
  rw [toRGB_r_of_dark _ _ hc1 hc2 (by linarith) hs2,
    toRGB_r_of_dark _ _ hc1 hc2 (by linarith) (by linarith)] at hr
  have : Real.sin 0.04 = 0 := by
    norm_num at hr
    linarith
  linarith

/-! ## The blend factor -/

theorem Diverging.norm_below (d : Diverging) (v : ℝ) (hv : v < d._midPoint) :
    d.norm v = max 0 (min 1 ((v - d._min) / (d._midPoint - d._min))) := by
  simp only [Diverging.norm, hv, if_true, std_max_eq, std_min_eq]
  norm_num

theorem Diverging.norm_above (d : Diverging) (v : ℝ) (hv : d._midPoint ≤ v) :
    d.norm v = max 0 (min 1 ((v - d._midPoint) / (d._max - d._midPoint))) := by
  simp only [Diverging.norm, not_lt.mpr hv, if_false, std_max_eq, std_min_eq]
  norm_num

theorem Diverging.norm_of_le_min (d : Diverging) (v : ℝ) (h1 : d._min < d._midPoint)
    (hv : v ≤ d._min) : d.norm v = 0 := by
  rw [d.norm_below v (lt_of_le_of_lt hv h1)]
  have h : (v - d._min) / (d._midPoint - d._min) ≤ 0 :=
    div_nonpos_of_nonpos_of_nonneg (by linarith) (by linarith)
  rw [min_eq_right (by linarith), max_eq_left h]

theorem Diverging.norm_of_max_le (d : Diverging) (v : ℝ) (h2 : d._midPoint < d._max)
    (hv : d._max ≤ v) : d.norm v = 1 := by
  rw [d.norm_above v (by linarith)]
  have h : 1 ≤ (v - d._midPoint) / (d._max - d._midPoint) := by
    rw [le_div_iff₀ (by linarith)]
    linarith
  rw [min_eq_left h]
  norm_num

theorem Diverging.norm_midPoint (d : Diverging) : d.norm d._midPoint = 0 := by
  rw [d.norm_above _ le_rfl]
  simp

/-- C2. Values at or below `_min` give the colour of `_min`, and values at or above
`_max` give the colour of `_max`. -/
theorem colormap_clamps_outside_domain (d : Diverging)
    (h1 : d._min < d._midPoint) (h2 : d._midPoint < d._max) :
    (∀ v : ℝ, v ≤ d._min → d.colormap v = d.colormap d._min) ∧
    (∀ v : ℝ, d._max ≤ v → d.colormap v = d.colormap d._max) := by
  constructor
  · intro v hv
    rw [d.colormap_eq_branchColour v, d.colormap_eq_branchColour d._min,
      d.norm_of_le_min v h1 hv, d.norm_of_le_min d._min h1 le_rfl,
      decide_eq_true (lt_of_le_of_lt hv h1), decide_eq_true h1]
  · intro v hv
    rw [d.colormap_eq_branchColour v, d.colormap_eq_branchColour d._max,
      d.norm_of_max_le v h2 hv, d.norm_of_max_le d._max h2 le_rfl,
      decide_eq_false (not_lt.mpr (le_trans h2.le hv)), decide_eq_false (not_lt.mpr h2.le)]

theorem colormap_clamps_outside_domain_witness :
    (sampleMap ⟨1, 0, 0⟩ ⟨2, 1, 0⟩)._min < (sampleMap ⟨1, 0, 0⟩ ⟨2, 1, 0⟩)._midPoint ∧
    (sampleMap ⟨1, 0, 0⟩ ⟨2, 1, 0⟩)._midPoint < (sampleMap ⟨1, 0, 0⟩ ⟨2, 1, 0⟩)._max ∧
    ((∀ v : ℝ, v ≤ (sampleMap ⟨1, 0, 0⟩ ⟨2, 1, 0⟩)._min →
        (sampleMap ⟨1, 0, 0⟩ ⟨2, 1, 0⟩).colormap v
          = (sampleMap ⟨1, 0, 0⟩ ⟨2, 1, 0⟩).colormap (sampleMap ⟨1, 0, 0⟩ ⟨2, 1, 0⟩)._min) ∧
     (∀ v : ℝ, (sampleMap ⟨1, 0, 0⟩ ⟨2, 1, 0⟩)._max ≤ v →
        (sampleMap ⟨1, 0, 0⟩ ⟨2, 1, 0⟩).colormap v
          = (sampleMap ⟨1, 0, 0⟩ ⟨2, 1, 0⟩).colormap (sampleMap ⟨1, 0, 0⟩ ⟨2, 1, 0⟩)._max)) :=
  ⟨by norm_num [sampleMap], by norm_num [sampleMap],
    colormap_clamps_outside_domain (sampleMap ⟨1, 0, 0⟩ ⟨2, 1, 0⟩)
      (by norm_num [sampleMap]) (by norm_num [sampleMap])⟩

/-- C6, as stated, fails: at `b = _midPoint` the blend factor is `0`. -/
theorem norm_strictMono_below_counterexample :
    ¬ ∀ (d : Diverging) (a b : ℝ), d._min ≤ a → a < b → b ≤ d._midPoint →
        d.norm a < d.norm b := by
  intro h
  have h1 := h (sampleMap ⟨0, 0, 0⟩ ⟨0, 0, 0⟩) (1/2) 1 (by norm_num [sampleMap])
    (by norm_num) (by norm_num [sampleMap])
  have h2 : (sampleMap ⟨0, 0, 0⟩ ⟨0, 0, 0⟩).norm 1 = 0 :=
    (sampleMap ⟨0, 0, 0⟩ ⟨0, 0, 0⟩).norm_midPoint
  have h3 : (sampleMap ⟨0, 0, 0⟩ ⟨0, 0, 0⟩).norm (1/2) = 1/2 := by
    rw [Diverging.norm_below _ _ (by norm_num [sampleMap])]
    norm_num [sampleMap]
  rw [h2, h3] at h1
  norm_num at h1

/-- C6, amended. The blend factor is strictly increasing on `[_min, _midPoint)`. -/
theorem norm_strictMono_below (d : Diverging) (a b : ℝ)
    (ha : d._min ≤ a) (hab : a < b) (hb : b < d._midPoint) :
    d.norm a < d.norm b := by
  have hd : 0 < d._midPoint - d._min := by linarith
  rw [d.norm_below a (by linarith), d.norm_below b hb]
  have ha0 : 0 ≤ (a - d._min) / (d._midPoint - d._min) := div_nonneg (by linarith) hd.le
  have hab1 : (a - d._min) / (d._midPoint - d._min) < (b - d._min) / (d._midPoint - d._min) :=
    div_lt_div_of_pos_right (by linarith) hd
  have hb1 : (b - d._min) / (d._midPoint - d._min) ≤ 1 := by
    rw [div_le_one hd]
    linarith
  rw [min_eq_right (by linarith), min_eq_right hb1, max_eq_right ha0,
    max_eq_right (by linarith)]
  exact hab1

theorem norm_strictMono_below_witness :
    (sampleMap ⟨0, 0, 0⟩ ⟨0, 0, 0⟩)._min ≤ 0 ∧ (0 : ℝ) < 1/2 ∧
    (1/2 : ℝ) < (sampleMap ⟨0, 0, 0⟩ ⟨0, 0, 0⟩)._midPoint ∧
    (sampleMap ⟨0, 0, 0⟩ ⟨0, 0, 0⟩).norm 0 < (sampleMap ⟨0, 0, 0⟩ ⟨0, 0, 0⟩).norm (1/2) :=
  ⟨by norm_num [sampleMap], by norm_num, by norm_num [sampleMap],
    norm_strictMono_below (sampleMap ⟨0, 0, 0⟩ ⟨0, 0, 0⟩) 0 (1/2)
      (by norm_num [sampleMap]) (by norm_num) (by norm_num [sampleMap])⟩

/-- C7. The blend factor is strictly increasing on `[_midPoint, _max]`. -/
theorem norm_strictMono_above (d : Diverging) (a b : ℝ)
    (ha : d._midPoint ≤ a) (hab : a < b) (hb : b ≤ d._max) :
    d.norm a < d.norm b := by
  have hd : 0 < d._max - d._midPoint := by linarith
  rw [d.norm_above a ha, d.norm_above b (by linarith)]
  have ha0 : 0 ≤ (a - d._midPoint) / (d._max - d._midPoint) := div_nonneg (by linarith) hd.le
  have hab1 : (a - d._midPoint) / (d._max - d._midPoint)
      < (b - d._midPoint) / (d._max - d._midPoint) :=
    div_lt_div_of_pos_right (by linarith) hd
  have hb1 : (b - d._midPoint) / (d._max - d._midPoint) ≤ 1 := by
    rw [div_le_one hd]
    linarith
  rw [min_eq_right (by linarith), min_eq_right hb1, max_eq_right ha0,
    max_eq_right (by linarith)]
  exact hab1

theorem norm_strictMono_above_witness :
    (sampleMap ⟨0, 0, 0⟩ ⟨0, 0, 0⟩)._midPoint ≤ 1 ∧ (1 : ℝ) < 2 ∧
    (2 : ℝ) ≤ (sampleMap ⟨0, 0, 0⟩ ⟨0, 0, 0⟩)._max ∧
    (sampleMap ⟨0, 0, 0⟩ ⟨0, 0, 0⟩).norm 1 < (sampleMap ⟨0, 0, 0⟩ ⟨0, 0, 0⟩).norm 2 :=
  ⟨by norm_num [sampleMap], by norm_num, by norm_num [sampleMap],
    norm_strictMono_above (sampleMap ⟨0, 0, 0⟩ ⟨0, 0, 0⟩) 1 2
      (by norm_num [sampleMap]) (by norm_num) (by norm_num [sampleMap])⟩

/-- C8. The colour at the midpoint depends on the stored end points only. -/
theorem colormap_midPoint_independent (d e : Diverging)
    (hlow : d._low = e._low) (hhigh : d._high = e._high)
    (hs : d._low._s = d._high._s) (hm : d._low._m = d._high._m)
    (hd1 : d._min < d._midPoint) (hd2 : d._midPoint < d._max)
    (he1 : e._min < e._midPoint) (he2 : e._midPoint < e._max) :
    d.colormap d._midPoint = e.colormap e._midPoint := by
  rw [d.colormap_eq_branchColour, e.colormap_eq_branchColour, d.norm_midPoint,
    e.norm_midPoint, decide_eq_false (lt_irrefl _), decide_eq_false (lt_irrefl _)]
  unfold Diverging.branchColour Diverging.controlPoints
  rw [hlow, hhigh]

theorem colormap_midPoint_independent_witness :
    (sampleMap ⟨1, 1, 0⟩ ⟨1, 1, 2⟩)._low
      = ((sampleMap ⟨1, 1, 0⟩ ⟨1, 1, 2⟩).setMidpoint (3 / 2))._low ∧
    (sampleMap ⟨1, 1, 0⟩ ⟨1, 1, 2⟩)._min < (sampleMap ⟨1, 1, 0⟩ ⟨1, 1, 2⟩)._midPoint ∧
    (sampleMap ⟨1, 1, 0⟩ ⟨1, 1, 2⟩)._midPoint < (sampleMap ⟨1, 1, 0⟩ ⟨1, 1, 2⟩)._max ∧
    ((sampleMap ⟨1, 1, 0⟩ ⟨1, 1, 2⟩).setMidpoint (3 / 2))._midPoint = 3 / 2 ∧
    (sampleMap ⟨1, 1, 0⟩ ⟨1, 1, 2⟩).colormap (sampleMap ⟨1, 1, 0⟩ ⟨1, 1, 2⟩)._midPoint
      = ((sampleMap ⟨1, 1, 0⟩ ⟨1, 1, 2⟩).setMidpoint (3 / 2)).colormap
          ((sampleMap ⟨1, 1, 0⟩ ⟨1, 1, 2⟩).setMidpoint (3 / 2))._midPoint :=
  ⟨rfl, by norm_num [sampleMap], by norm_num [sampleMap], rfl,
    colormap_midPoint_independent (sampleMap ⟨1, 1, 0⟩ ⟨1, 1, 2⟩)
      ((sampleMap ⟨1, 1, 0⟩ ⟨1, 1, 2⟩).setMidpoint (3 / 2)) rfl rfl rfl rfl
      (by norm_num [sampleMap]) (by norm_num [sampleMap])
      (by norm_num [sampleMap, Diverging.setMidpoint])
      (by norm_num [sampleMap, Diverging.setMidpoint])⟩

/-! ## The end points of the map -/

theorem Diverging.interpolate_zero (low high : MSH) :
    Diverging.interpolate low high 0 = low := by
  cases low
  unfold Diverging.interpolate
  norm_num

theorem Diverging.interpolate_one (low high : MSH) :
    Diverging.interpolate low high 1 = high := by
  cases high
  unfold Diverging.interpolate
  norm_num

/-- The colour at `_min` is the low control point of the lower branch. -/
theorem Diverging.colormap_min (d : Diverging) (h1 : d._min < d._midPoint) :
    d.colormap d._min = (d.controlPoints true).1.toRGB := by
  rw [d.colormap_eq_branchColour, d.norm_of_le_min _ h1 le_rfl, decide_eq_true h1]
  unfold Diverging.branchColour
  rw [Diverging.interpolate_zero]

/-- The colour at `_max` is the high control point of the upper branch. -/
theorem Diverging.colormap_max (d : Diverging) (h2 : d._midPoint < d._max) :
    d.colormap d._max = (d.controlPoints false).2.toRGB := by
  rw [d.colormap_eq_branchColour, d.norm_of_max_le _ h2 le_rfl,
    decide_eq_false (not_lt.mpr h2.le)]
  unfold Diverging.branchColour
  rw [Diverging.interpolate_one]

/-- The colour at `_midPoint` is the low control point of the upper branch. -/
theorem Diverging.colormap_midPoint (d : Diverging) :
    d.colormap d._midPoint = (d.controlPoints false).1.toRGB := by
  rw [d.colormap_eq_branchColour, d.norm_midPoint, decide_eq_false (lt_irrefl _)]
  unfold Diverging.branchColour
  rw [Diverging.interpolate_zero]

/-- The low control point of the lower branch. -/
theorem Diverging.controlPoints_true_fst (d : Diverging) :
    (d.controlPoints true).1 =
      if d._low._s < 0.05 ∧ d._high._s > 0.05 then
        ⟨d._low._m, d._low._s, adjustHue d._high d._low._m⟩
      else d._low := by
  simp only [Diverging.controlPoints, if_true]
  by_cases hb : d._low._s > 0.05 ∧ d._high._s > 0.05
  · have hn : ¬ (d._low._s < 0.05 ∧ d._high._s > 0.05) := fun h => by linarith [h.1, hb.1]
    have hn1 : ¬ (d._low._s < 0.05 ∧ (0.0 : ℝ) > 0.05) := by norm_num
    have hp2 : ((0.0 : ℝ) < 0.05 ∧ d._low._s > 0.05) := ⟨by norm_num, hb.1⟩
    rw [if_pos hb, if_neg hn]
    simp only [if_neg hn1, if_pos hp2]
  · rw [if_neg hb]
    by_cases h1 : d._low._s < 0.05 ∧ d._high._s > 0.05
    · simp only [if_pos h1]
    · simp only [if_neg h1]
      split_ifs <;> rfl

/-- The high control point of the upper branch. -/
theorem Diverging.controlPoints_false_snd (d : Diverging) :
    (d.controlPoints false).2 =
      if d._high._s < 0.05 ∧ d._low._s > 0.05 then
        ⟨d._high._m, d._high._s, adjustHue d._low d._high._m⟩
      else d._high := by
  simp only [Diverging.controlPoints, Bool.false_eq_true, if_false]
  by_cases hb : d._low._s > 0.05 ∧ d._high._s > 0.05
  · have hn : ¬ (d._high._s < 0.05 ∧ d._low._s > 0.05) := fun h => by linarith [h.1, hb.2]
    have hp1 : ((0.0 : ℝ) < 0.05 ∧ d._high._s > 0.05) := ⟨by norm_num, hb.2⟩
    rw [if_pos hb, if_neg hn]
    simp only [if_pos hp1]
  · rw [if_neg hb]
    by_cases h1 : d._low._s < 0.05 ∧ d._high._s > 0.05
    · have hn : ¬ (d._high._s < 0.05 ∧ d._low._s > 0.05) := fun h => by linarith [h.1, h1.2]
      simp only [if_pos h1, if_neg hn]
    · simp only [if_neg h1]
      split_ifs <;> rfl

/-- C1, as stated, fails: the hue of an unsaturated low end point is replaced before
the interpolation, and the replaced hue shows in the colour at `_min`. -/
theorem colormap_endpoints_counterexample :
    ¬ ∀ d : Diverging, d._min < d._midPoint → d._midPoint < d._max →
        d.colormap d._min = d._low.toRGB ∧ d.colormap d._max = d._high.toRGB := by
  intro h
  have h1 := (h (sampleMap ⟨1, 0.04, 0⟩ ⟨2, 1, Real.pi⟩) (by norm_num [sampleMap])
    (by norm_num [sampleMap])).1
  rw [Diverging.colormap_min _ (by norm_num [sampleMap]), Diverging.controlPoints_true_fst]
    at h1
  have h2 : adjustHue (⟨2, 1, Real.pi⟩ : MSH) 1 = Real.pi := by
    unfold adjustHue
    norm_num
  have h3 : ((0.04 : ℝ) < 0.05 ∧ (1 : ℝ) > 0.05) := by norm_num
  simp only [sampleMap, h2, h3, and_self, if_true] at h1
  exact toRGB_hue_matters h1.symm

/-- C1, amended. The colours at `_min` and `_max` are the conversions of the stored end
points after the hue adjustment that applies to an unsaturated end point. -/
theorem colormap_endpoints (d : Diverging)
    (h1 : d._min < d._midPoint) (h2 : d._midPoint < d._max) :
    d.colormap d._min =
      (if d._low._s < 0.05 ∧ d._high._s > 0.05 then
        (⟨d._low._m, d._low._s, adjustHue d._high d._low._m⟩ : MSH)
       else d._low).toRGB ∧
    d.colormap d._max =
      (if d._high._s < 0.05 ∧ d._low._s > 0.05 then
        (⟨d._high._m, d._high._s, adjustHue d._low d._high._m⟩ : MSH)
       else d._high).toRGB := by
  rw [d.colormap_min h1, d.colormap_max h2, d.controlPoints_true_fst,
    d.controlPoints_false_snd]
  exact ⟨rfl, rfl⟩

theorem colormap_endpoints_witness :
    (sampleMap ⟨1, 0.04, 0⟩ ⟨2, 1, Real.pi⟩)._min
      < (sampleMap ⟨1, 0.04, 0⟩ ⟨2, 1, Real.pi⟩)._midPoint ∧
    (sampleMap ⟨1, 0.04, 0⟩ ⟨2, 1, Real.pi⟩)._midPoint
      < (sampleMap ⟨1, 0.04, 0⟩ ⟨2, 1, Real.pi⟩)._max ∧
    (sampleMap ⟨1, 0.04, 0⟩ ⟨2, 1, Real.pi⟩).colormap
        (sampleMap ⟨1, 0.04, 0⟩ ⟨2, 1, Real.pi⟩)._min
      = (⟨1, 0.04, Real.pi⟩ : MSH).toRGB ∧
    (sampleMap ⟨1, 0.04, 0⟩ ⟨2, 1, Real.pi⟩).colormap
        (sampleMap ⟨1, 0.04, 0⟩ ⟨2, 1, Real.pi⟩)._max
      = (⟨2, 1, Real.pi⟩ : MSH).toRGB := by
  have h := colormap_endpoints (sampleMap ⟨1, 0.04, 0⟩ ⟨2, 1, Real.pi⟩)
    (by norm_num [sampleMap]) (by norm_num [sampleMap])
  have h2 : adjustHue (⟨2, 1, Real.pi⟩ : MSH) 1 = Real.pi := by
    unfold adjustHue
    norm_num
  have h3 : ((0.04 : ℝ) < 0.05 ∧ (1 : ℝ) > 0.05) := by norm_num
  have h4 : ¬ ((1 : ℝ) < 0.05 ∧ (0.04 : ℝ) > 0.05) := by norm_num
  simp only [sampleMap, h2, h3, h4, and_self, if_true, if_false] at h
  exact ⟨by norm_num [sampleMap], by norm_num [sampleMap], h.1, h.2⟩

/-! ## The midpoint -/

/-- The magnitude of the grey control point of saturation levelling. -/
theorem Diverging.controlPoints_true_snd_of_saturated (d : Diverging)
    (hl : d._low._s > 0.05) (hh : d._high._s > 0.05) :
    (d.controlPoints true).2 =
      ⟨std.max 88.0 (std.max d._low._m d._high._m), 0.0,
        adjustHue d._low (std.max 88.0 (std.max d._low._m d._high._m))⟩ := by
  simp only [Diverging.controlPoints, if_true]
  have hn1 : ¬ (d._low._s < 0.05 ∧ (0.0 : ℝ) > 0.05) := by norm_num
  have hp2 : ((0.0 : ℝ) < 0.05 ∧ d._low._s > 0.05) := ⟨by norm_num, hl⟩
  have hb : d._low._s > 0.05 ∧ d._high._s > 0.05 := ⟨hl, hh⟩
  simp only [if_pos hb, if_neg hn1, if_pos hp2]

theorem Diverging.controlPoints_false_fst_of_saturated (d : Diverging)
    (hl : d._low._s > 0.05) (hh : d._high._s > 0.05) :
    (d.controlPoints false).1 =
      ⟨std.max 88.0 (std.max d._low._m d._high._m), 0.0,
        adjustHue d._high (std.max 88.0 (std.max d._low._m d._high._m))⟩ := by
  simp only [Diverging.controlPoints, Bool.false_eq_true, if_false]
  have hp1 : ((0.0 : ℝ) < 0.05 ∧ d._high._s > 0.05) := ⟨by norm_num, hh⟩
  have hb : d._low._s > 0.05 ∧ d._high._s > 0.05 := ⟨hl, hh⟩
  simp only [if_pos hb, if_pos hp1]

/-- When neither end point is saturated the control points are the stored end points. -/
theorem Diverging.controlPoints_of_unsaturated (d : Diverging) (below : Bool)
    (hl : d._low._s ≤ 0.05) (hh : d._high._s ≤ 0.05) :
    d.controlPoints below = (d._low, d._high) := by
  have hb : ¬ (d._low._s > 0.05 ∧ d._high._s > 0.05) := fun h => by linarith [h.1]
  have h1 : ¬ (d._low._s < 0.05 ∧ d._high._s > 0.05) := fun h => by linarith [h.2]
  have h2 : ¬ (d._high._s < 0.05 ∧ d._low._s > 0.05) := fun h => by linarith [h.2]
  simp only [Diverging.controlPoints, if_neg hb, if_neg h1, if_neg h2]

/-- A colour of saturation zero converts like the neutral colour of its magnitude,
whatever its hue. -/
theorem MSH.toRGB_of_zero_saturation (m h : ℝ) :
    (⟨m, 0.0, h⟩ : MSH).toRGB = (CIELAB.toXYZ ⟨m, 0, 0⟩).toRGB := by
  simp only [MSH.toRGB, MSH.toCIELAB, std.cos, std.sin]
  norm_num

/-- C5, as stated, fails: two unsaturated end points of equal magnitude and saturation
but different hue give different colours on the two sides of the midpoint. -/
theorem midpoint_sides_agree_counterexample :
    ¬ ∀ d : Diverging, d._min < d._midPoint → d._midPoint < d._max →
        d._low._m = d._high._m → d._low._s = d._high._s →
        d.branchColour true 1 = d.colormap d._midPoint := by
  intro h
  have h1 := h (sampleMap ⟨1, 0.04, 0⟩ ⟨1, 0.04, Real.pi⟩) (by norm_num [sampleMap])
    (by norm_num [sampleMap]) rfl rfl
  rw [Diverging.colormap_midPoint, Diverging.branchColour, Diverging.interpolate_one,
    Diverging.controlPoints_of_unsaturated _ _ (by norm_num [sampleMap])
      (by norm_num [sampleMap]),
    Diverging.controlPoints_of_unsaturated _ _ (by norm_num [sampleMap])
      (by norm_num [sampleMap])] at h1
  exact toRGB_hue_matters h1.symm

/-- C5, amended. With end points of equal magnitude and equal saturation, the colour of
the lower branch at blend factor one is the colour at the midpoint when the end points
are saturated, and also when their hues are equal. -/
theorem midpoint_sides_agree (d : Diverging)
    (h1 : d._min < d._midPoint) (h2 : d._midPoint < d._max)
    (hm : d._low._m = d._high._m) (hs : d._low._s = d._high._s)
    (hc : 0.05 < d._low._s ∨ d._low._h = d._high._h) :
    d.branchColour true 1 = d.colormap d._midPoint := by
  rw [Diverging.colormap_midPoint, Diverging.branchColour, Diverging.interpolate_one]
  by_cases hsat : 0.05 < d._low._s
  · have hh : d._high._s > 0.05 := by rw [← hs]; exact hsat
    rw [d.controlPoints_true_snd_of_saturated hsat hh,
      d.controlPoints_false_fst_of_saturated hsat hh,
      MSH.toRGB_of_zero_saturation, MSH.toRGB_of_zero_saturation]
  · have hl : d._low._s ≤ 0.05 := not_lt.mp hsat
    have hh : d._high._s ≤ 0.05 := by rw [← hs]; exact hl
    have he : d._low = d._high := by
      cases hc with
      | inl h => exact absurd h hsat
      | inr h =>
        cases hlow : d._low
        cases hhigh : d._high
        rw [hlow, hhigh] at hm hs h
        simp only at hm hs h
        rw [hm, hs, h]
    rw [d.controlPoints_of_unsaturated _ hl hh, d.controlPoints_of_unsaturated _ hl hh]
    exact congrArg MSH.toRGB he.symm

theorem midpoint_sides_agree_witness :
    (sampleMap ⟨80, 1.08, -1.1⟩ ⟨80, 1.08, 0.5⟩)._min
      < (sampleMap ⟨80, 1.08, -1.1⟩ ⟨80, 1.08, 0.5⟩)._midPoint ∧
    (sampleMap ⟨80, 1.08, -1.1⟩ ⟨80, 1.08, 0.5⟩)._midPoint
      < (sampleMap ⟨80, 1.08, -1.1⟩ ⟨80, 1.08, 0.5⟩)._max ∧
    (0.05 : ℝ) < (sampleMap ⟨80, 1.08, -1.1⟩ ⟨80, 1.08, 0.5⟩)._low._s ∧
    (sampleMap ⟨80, 1.08, -1.1⟩ ⟨80, 1.08, 0.5⟩).branchColour true 1
      = (sampleMap ⟨80, 1.08, -1.1⟩ ⟨80, 1.08, 0.5⟩).colormap
          (sampleMap ⟨80, 1.08, -1.1⟩ ⟨80, 1.08, 0.5⟩)._midPoint :=
  ⟨by norm_num [sampleMap], by norm_num [sampleMap], by norm_num [sampleMap],
    midpoint_sides_agree (sampleMap ⟨80, 1.08, -1.1⟩ ⟨80, 1.08, 0.5⟩)
      (by norm_num [sampleMap]) (by norm_num [sampleMap]) rfl rfl
      (Or.inl (by norm_num [sampleMap]))⟩

/-! ## Pure red and neutral grey -/

theorem gammaDecode_one : gammaDecode 1 = 1 := by
  unfold gammaDecode std.pow
  norm_num

theorem gammaDecode_zero : gammaDecode 0 = 0 := by
  unfold gammaDecode
  norm_num

/-- The XYZ coordinates of pure red. -/
theorem RGB.toXYZ_red : (⟨1, 0, 0⟩ : RGB).toXYZ = ⟨0.4124, 0.2126, 0.0193⟩ := by
  rw [RGB.toXYZ_channels]
  simp only [gammaDecode_one, gammaDecode_zero]
  norm_num

theorem RGB.toXYZ_black : (⟨0, 0, 0⟩ : RGB).toXYZ = ⟨0, 0, 0⟩ := by
  rw [RGB.toXYZ_channels]
  simp only [gammaDecode_zero]
  norm_num

theorem RGB.toMSH_black : (⟨0, 0, 0⟩ : RGB).toMSH = ⟨0, 0, 0⟩ := by
  unfold RGB.toMSH
  rw [RGB.toXYZ_black, XYZ.toCIELAB_eq]
  have h : labForward 0 = 16 / 116 := by
    unfold labForward
    norm_num
  simp only [zero_div, h]
  unfold CIELAB.toMSH std.sqrt
  norm_num

theorem gammaEncode_of_gt (c : ℝ) (hc : 0.0031308 < c) :
    gammaEncode c = 1.055 * c ^ (5 / 12 : ℝ) - 0.055 := by
  unfold gammaEncode std.pow
  rw [if_pos hc]
  norm_num

/-- Above the threshold the gamma encoding is strictly increasing. -/
theorem gammaEncode_lt_of_lt (x y : ℝ) (hx : 0.0031308 < x) (hxy : x < y) :
    gammaEncode x < gammaEncode y := by
  have hx0 : (0 : ℝ) ≤ x := le_trans (by norm_num) hx.le
  rw [gammaEncode_of_gt x hx, gammaEncode_of_gt y (lt_trans hx hxy)]
  have h := Real.rpow_lt_rpow hx0 hxy (by norm_num : (0 : ℝ) < 5 / 12)
  linarith

theorem labInverse_of_ge (t : ℝ) (ht : 0.21 ≤ t) : labInverse t = t ^ 3 := by
  rw [labInverse_eq]
  have h2 : (0.21 : ℝ) ^ 3 ≤ t ^ 3 := (Odd.strictMono_pow (by decide : Odd 3)).monotone ht
  have h3 : (0.008856 : ℝ) < 0.21 ^ 3 := by norm_num
  rw [if_pos (lt_of_lt_of_le h3 h2)]

theorem scaleDown_r_lt_g (r g b : ℝ) (h : r < g) :
    (scaleDown r g b)._r < (scaleDown r g b)._g := by
  unfold scaleDown
  split_ifs with hm
  · have h0 : (0 : ℝ) < std.max r (std.max g b) := lt_trans (by norm_num) hm
    exact div_lt_div_of_pos_right h h0
  · exact h

theorem scaleDown_of_r_gt (r g b : ℝ) (hr : 1 < r) (hg : g ≤ r) (hb : b ≤ r) :
    scaleDown r g b = ⟨1, g / r, b / r⟩ := by
  have hmax : std.max r (std.max g b) = r := by
    rw [std_max_eq, std_max_eq]
    exact max_eq_left (max_le hg hb)
  unfold scaleDown
  rw [hmax, if_pos (by norm_num; exact hr), div_self (by linarith)]

/-- A neutral colour of magnitude at least 88 converts to an RGB colour whose red
channel is below its green channel. -/
theorem toRGB_grey_r_lt_g (m : ℝ) (hm : 88 ≤ m) :
    (CIELAB.toXYZ ⟨m, 0, 0⟩).toRGB._r < (CIELAB.toXYZ ⟨m, 0, 0⟩).toRGB._g := by
  have ht : (0.21 : ℝ) ≤ (m + 16) / 116 := by
    rw [le_div_iff₀ (by norm_num)]
    linarith
  have hY : (0.7 : ℝ) ≤ ((m + 16) / 116) ^ 3 := by
    have h1 : (0.89 : ℝ) ≤ (m + 16) / 116 := by
      rw [le_div_iff₀ (by norm_num)]
      linarith
    have h2 : (0.89 : ℝ) ^ 3 ≤ ((m + 16) / 116) ^ 3 :=
      (Odd.strictMono_pow (by decide : Odd 3)).monotone h1
    have h3 : (0.7 : ℝ) ≤ 0.89 ^ 3 := by norm_num
    linarith
  have hy : labInverse ((m + 16.0) / 116.0) = ((m + 16) / 116) ^ 3 := by
    rw [← labInverse_of_ge _ ht]
    norm_num
  have hx : labInverse (0 / 500.0 + (m + 16.0) / 116.0) = ((m + 16) / 116) ^ 3 := by
    rw [← labInverse_of_ge _ ht]
    norm_num
  have hz : labInverse ((m + 16.0) / 116.0 - 0 / 200.0) = ((m + 16) / 116) ^ 3 := by
    rw [← labInverse_of_ge _ ht]
    norm_num
  rw [CIELAB.toXYZ_axes, XYZ.toRGB_eq]
  simp only [hx, hy, hz, REF_X, REF_Y, REF_Z]
  apply scaleDown_r_lt_g
  apply gammaEncode_lt_of_lt
  · norm_num
    linarith
  · norm_num
    linarith

theorem gammaEncode_red_bounds :
    1 < gammaEncode 1.0000014263 ∧ gammaEncode 1.0000014263 ≤ 1.0000016 := by
  rw [gammaEncode_of_gt _ (by norm_num)]
  have h1 : (1 : ℝ) < (1.0000014263 : ℝ) ^ (5 / 12 : ℝ) :=
    Real.one_lt_rpow (by norm_num) (by norm_num)
  have h2 : (1.0000014263 : ℝ) ^ (5 / 12 : ℝ) ≤ (1.0000014263 : ℝ) ^ (1 : ℝ) :=
    Real.rpow_le_rpow_of_exponent_le (by norm_num) (by norm_num)
  rw [Real.rpow_one] at h2
  constructor
  · linarith
  · linarith

/-- The RGB conversion of the XYZ coordinates of pure red: the red channel overflows by
about one part in a million, and the scaled green and blue channels are not zero. -/
theorem XYZ.toRGB_red :
    (⟨0.4124, 0.2126, 0.0193⟩ : XYZ).toRGB
      = ⟨1, 0.000009294002 / gammaEncode 1.0000014263,
          0.0000010418688 / gammaEncode 1.0000014263⟩ := by
  obtain ⟨h1, h2⟩ := gammaEncode_red_bounds
  rw [XYZ.toRGB_eq]
  have hr : (0.4124 : ℝ) * 3.24063 + 0.2126 * -1.53721 + 0.0193 * -0.498629
      = 1.0000014263 := by norm_num
  have hg : gammaEncode ((0.4124 : ℝ) * -0.968931 + 0.2126 * 1.87576 + 0.0193 * 0.0415175)
      = 0.000009294002 := by
    rw [gammaEncode_of_le _ (by norm_num)]
    norm_num
  have hb : gammaEncode ((0.4124 : ℝ) * 0.0557101 + 0.2126 * -0.204021 + 0.0193 * 1.0570)
      = 0.0000010418688 := by
    rw [gammaEncode_of_le _ (by norm_num)]
    norm_num
  simp only [hr, hg, hb]
  exact scaleDown_of_r_gt _ _ _ h1 (le_trans (by norm_num) h1.le)
    (le_trans (by norm_num) h1.le)

theorem cube_le_cube_iff (a b : ℝ) : a ^ 3 ≤ b ^ 3 ↔ a ≤ b :=
  (Odd.strictMono_pow (by decide : Odd 3) : StrictMono fun x : ℝ => x ^ 3).le_iff_le

theorem le_cbrt (a t : ℝ) (ha : 0 ≤ a) (h : a ^ 3 ≤ t) : a ≤ std.pow t (1.0/3.0) := by
  have ht : 0 ≤ t := le_trans (by positivity) h
  rw [← cbrt_pow_three t ht] at h
  exact (cube_le_cube_iff _ _).mp h

theorem cbrt_le (b t : ℝ) (ht : 0 ≤ t) (h : t ≤ b ^ 3) : std.pow t (1.0/3.0) ≤ b := by
  rw [← cbrt_pow_three t ht] at h
  exact (cube_le_cube_iff _ _).mp h

/-- Bounds on the CIELAB coordinates of pure red. -/
theorem red_lab_bounds :
    52 ≤ (⟨0.4124, 0.2126, 0.0193⟩ : XYZ).toCIELAB._l ∧
    (⟨0.4124, 0.2126, 0.0193⟩ : XYZ).toCIELAB._l ≤ 54 ∧
    75 ≤ (⟨0.4124, 0.2126, 0.0193⟩ : XYZ).toCIELAB._a := by
  have hy : labForward (0.2126 / REF_Y) = std.pow 0.2126 (1.0/3.0) := by
    unfold labForward REF_Y
    norm_num
  have hx : labForward (0.4124 / REF_X) = std.pow (0.4124 / 0.95047) (1.0/3.0) := by
    unfold labForward REF_X
    norm_num
  have hy1 : (0.59 : ℝ) ≤ std.pow 0.2126 (1.0/3.0) := le_cbrt _ _ (by norm_num) (by norm_num)
  have hy2 : std.pow 0.2126 (1.0/3.0) ≤ (0.6 : ℝ) := cbrt_le _ _ (by norm_num) (by norm_num)
  have hx1 : (0.75 : ℝ) ≤ std.pow (0.4124 / 0.95047) (1.0/3.0) :=
    le_cbrt _ _ (by norm_num) (by norm_num)
  rw [XYZ.toCIELAB_eq]
  simp only [hx, hy]
  refine ⟨?_, ?_, ?_⟩
  · norm_num
    linarith
  · norm_num
    linarith
  · norm_num
    linarith

/-- A CIELAB colour with a large `a` component is far from the neutral axis: both
guards of `CIELAB::toMSH` pass and the saturation exceeds `0.05`. -/
theorem saturated_of_bounds (c : CIELAB) (hl0 : 0 ≤ c._l) (hl : c._l ≤ 54) (ha : 75 ≤ c._a) :
    0.001 < std.sqrt (c._l * c._l + c._a * c._a + c._b * c._b) ∧
    0.05 < std.acos (c._l / std.sqrt (c._l * c._l + c._a * c._a + c._b * c._b)) := by
  unfold std.sqrt std.acos
  set m := Real.sqrt (c._l * c._l + c._a * c._a + c._b * c._b) with hmdef
  have hm : 75 ≤ m := by
    rw [hmdef, Real.le_sqrt' (by norm_num)]
    nlinarith [mul_self_nonneg c._l, mul_self_nonneg c._b]
  have hm0 : 0 < m := by linarith
  have hq1 : c._l / m ≤ 0.72 := by
    rw [div_le_iff₀ hm0]
    linarith
  have hq0 : 0 ≤ c._l / m := div_nonneg hl0 hm0.le
  refine ⟨by linarith, ?_⟩
  by_contra hcon
  have hs : Real.arccos (c._l / m) ≤ 0.05 := not_lt.mp hcon
  have hcos := Real.cos_le_cos_of_nonneg_of_le_pi (Real.arccos_nonneg _)
    (by have := Real.pi_gt_three; linarith : (0.05 : ℝ) ≤ Real.pi) hs
  rw [Real.cos_arccos (by linarith) (by linarith)] at hcos
  have h5 := @Real.one_sub_sq_div_two_le_cos 0.05
  have h6 : (0.72 : ℝ) < 1 - 0.05 ^ 2 / 2 := by norm_num
  linarith

/-- The value of `CIELAB::toMSH` when its first guard passes. -/
theorem CIELAB.toMSH_s (c : CIELAB)
    (hm : 0.001 < std.sqrt (c._l * c._l + c._a * c._a + c._b * c._b)) :
    c.toMSH._s = std.acos (c._l / std.sqrt (c._l * c._l + c._a * c._a + c._b * c._b)) := by
  have hm' : std.sqrt (c._l * c._l + c._a * c._a + c._b * c._b) > 0.001 := hm
  simp only [CIELAB.toMSH, if_pos hm']

/-- Pure red is stored as a saturated colour, and converting the stored colour back
gives the RGB conversion of the XYZ coordinates of red. -/
theorem red_stored :
    0.05 < (⟨1, 0, 0⟩ : RGB).toMSH._s ∧
    (⟨1, 0, 0⟩ : RGB).toMSH.toRGB = (⟨0.4124, 0.2126, 0.0193⟩ : XYZ).toRGB := by
  obtain ⟨hl1, hl2, ha⟩ := red_lab_bounds
  obtain ⟨hm, hs⟩ := saturated_of_bounds _ (by linarith) hl2 ha
  unfold RGB.toMSH MSH.toRGB
  rw [RGB.toXYZ_red]
  constructor
  · rw [CIELAB.toMSH_s _ hm]
    exact hs
  · rw [CIELAB.toCIELAB_toMSH _ hm (lt_trans (by norm_num) hs), XYZ.toXYZ_toCIELAB]

/-- With both end points equal to one saturated colour, the colour at the midpoint is
the conversion of the neutral grey that saturation levelling inserts. -/
theorem Diverging.colormap_midPoint_of_same (d : Diverging) (p : MSH)
    (hlow : d._low = p) (hhigh : d._high = p) (hs : 0.05 < p._s) :
    d.colormap d._midPoint = (CIELAB.toXYZ ⟨max 88 p._m, 0, 0⟩).toRGB := by
  have hl : d._low._s > 0.05 := by rw [hlow]; exact hs
  have hh : d._high._s > 0.05 := by rw [hhigh]; exact hs
  have h88 : max (88.0 : ℝ) p._m = max 88 p._m := by norm_num
  rw [d.colormap_midPoint, d.controlPoints_false_fst_of_saturated hl hh,
    MSH.toRGB_of_zero_saturation, hlow, hhigh, std_max_eq, std_max_eq, max_self, h88]

theorem MSH.toRGB_neutral (m : ℝ) :
    (⟨m, 0, 0⟩ : MSH).toRGB = (CIELAB.toXYZ ⟨m, 0, 0⟩).toRGB := by
  have h0 : (⟨m, 0, 0⟩ : MSH) = ⟨m, 0.0, 0⟩ := by
    congr 1
    norm_num
  rw [h0]
  exact MSH.toRGB_of_zero_saturation m 0

/-- C3 fails on the code. With both end points set to pure red on the domain `[0, 2]`,
the colour at the midpoint `1` is the conversion of the neutral grey of magnitude
`max (88, m)` that saturation levelling inserts, with its red channel below its green
channel, while the stored red converts back to a colour with red channel `1` and green
channel below `1`. The levelling test of line 350 looks at the two saturations only; the
hue difference, marked `TODO: angle diff` on line 349, is not tested. -/
theorem same_colour_red_midpoint (low0 high0 : MSH) :
    (((Diverging.init 0 2 low0 high0).setLow 1 0 0).setHigh 1 0 0).colormap 1
      = (⟨max 88 (⟨1, 0, 0⟩ : RGB).toMSH._m, 0, 0⟩ : MSH).toRGB ∧
    ((((Diverging.init 0 2 low0 high0).setLow 1 0 0).setHigh 1 0 0).colormap 1)._r
      < ((((Diverging.init 0 2 low0 high0).setLow 1 0 0).setHigh 1 0 0).colormap 1)._g ∧
    (⟨1, 0, 0⟩ : RGB).toMSH.toRGB._r = 1 ∧ (⟨1, 0, 0⟩ : RGB).toMSH.toRGB._g < 1 ∧
    (((Diverging.init 0 2 low0 high0).setLow 1 0 0).setHigh 1 0 0).colormap 1
      ≠ (⟨1, 0, 0⟩ : RGB).toMSH.toRGB := by
  obtain ⟨hs, hred⟩ := red_stored
  obtain ⟨hr1, hr2⟩ := gammaEncode_red_bounds
  generalize hp : (⟨1, 0, 0⟩ : RGB).toMSH = p at hs hred ⊢
  have hd : ∃ d : Diverging, d = ((Diverging.init 0 2 low0 high0).setLow 1 0 0).setHigh 1 0 0
      ∧ d._low = p ∧ d._high = p ∧ d._midPoint = 1 := by
    refine ⟨_, rfl, hp, hp, ?_⟩
    show ((2 : ℝ) + 0) / 2.0 = 1
    norm_num
  obtain ⟨d, hdef, hlow, hhigh, hmp⟩ := hd
  rw [← hdef]
  have hmid := d.colormap_midPoint_of_same p hlow hhigh hs
  rw [hmp] at hmid
  have hlt := toRGB_grey_r_lt_g (max 88 p._m) (le_max_left _ _)
  have hg1 : 0.000009294002 / gammaEncode 1.0000014263 < 1 := by
    rw [div_lt_one (by linarith)]
    linarith
  have hredr : p.toRGB._r = 1 := by
    rw [hred, XYZ.toRGB_red]
  have hredg : p.toRGB._g < 1 := by
    rw [hred, XYZ.toRGB_red]
    exact hg1
  refine ⟨by rw [hmid, MSH.toRGB_neutral], by rw [hmid]; exact hlt, hredr, hredg, ?_⟩
  intro heq
  rw [hmid] at heq
  rw [heq, hredr] at hlt
  linarith

/-! ## The round trip through XYZ -/

/-- C4, as stated, fails: pure red comes back with a green channel of about `9.3e-6`. -/
theorem rgb_xyz_roundtrip_counterexample :
    ¬ ∀ c : RGB, (0 ≤ c._r ∧ c._r ≤ 1) → (0 ≤ c._g ∧ c._g ≤ 1) → (0 ≤ c._b ∧ c._b ≤ 1) →
        |c.toXYZ.toRGB._r - c._r| ≤ 0.000001 ∧ |c.toXYZ.toRGB._g - c._g| ≤ 0.000001 ∧
        |c.toXYZ.toRGB._b - c._b| ≤ 0.000001 := by
  intro h
  have hg := (h ⟨1, 0, 0⟩ (by norm_num) (by norm_num) (by norm_num)).2.1
  obtain ⟨h1, h2⟩ := gammaEncode_red_bounds
  rw [RGB.toXYZ_red, XYZ.toRGB_red] at hg
  simp only [sub_zero] at hg
  have h3 : (0.000001 : ℝ) < 0.000009294002 / gammaEncode 1.0000014263 := by
    rw [lt_div_iff₀ (by linarith)]
    have : (0.000001 : ℝ) * 1.0000016 < 0.000009294002 := by norm_num
    nlinarith
  have h4 := le_trans (le_abs_self _) hg
  linarith

/-- A rational lower bound on a real power with a rational exponent, from a comparison
of natural powers. -/
theorem le_rpow_of_pow_le (a b : ℝ) (m n : ℕ) (ha : 0 ≤ a) (hb : 0 ≤ b) (hn : n ≠ 0)
    (h : a ^ n ≤ b ^ m) : a ≤ b ^ ((m : ℝ) / (n : ℝ)) := by
  have h1 : a = (a ^ n) ^ ((n : ℝ)⁻¹) := (Real.pow_rpow_inv_natCast ha hn).symm
  have h2 : b ^ ((m : ℝ) / (n : ℝ)) = (b ^ m) ^ ((n : ℝ)⁻¹) := by
    rw [div_eq_mul_inv, Real.rpow_mul hb, Real.rpow_natCast]
  rw [h1, h2]
  exact Real.rpow_le_rpow (pow_nonneg ha n) h (inv_nonneg.mpr (Nat.cast_nonneg n))

/-- A rational upper bound on a real power with a rational exponent. -/
theorem rpow_le_of_le_pow (a b : ℝ) (m n : ℕ) (ha : 0 ≤ a) (hb : 0 ≤ b) (hn : n ≠ 0)
    (h : b ^ m ≤ a ^ n) : b ^ ((m : ℝ) / (n : ℝ)) ≤ a := by
  have h1 : a = (a ^ n) ^ ((n : ℝ)⁻¹) := (Real.pow_rpow_inv_natCast ha hn).symm
  have h2 : b ^ ((m : ℝ) / (n : ℝ)) = (b ^ m) ^ ((n : ℝ)⁻¹) := by
    rw [div_eq_mul_inv, Real.rpow_mul hb, Real.rpow_natCast]
  rw [h1, h2]
  exact Real.rpow_le_rpow (pow_nonneg hb m) h (inv_nonneg.mpr (Nat.cast_nonneg n))

/-- Bounds on the encoded value at the threshold `0.0031308`. -/
theorem threshold_rpow_bounds :
    (0.0904738 : ℝ) ≤ (0.0031308 : ℝ) ^ (5 / 12 : ℝ) ∧
    (0.0031308 : ℝ) ^ (5 / 12 : ℝ) ≤ 0.0904739 := by
  constructor
  · have h := le_rpow_of_pow_le 0.0904738 0.0031308 5 12 (by norm_num) (by norm_num)
      (by norm_num) (by norm_num)
    norm_num at h ⊢
    exact h
  · have h := rpow_le_of_le_pow 0.0904739 0.0031308 5 12 (by norm_num) (by norm_num)
      (by norm_num) (by norm_num)
    norm_num at h ⊢
    exact h

/-- The decoded value at the threshold `0.04045` is above `0.0031308`. -/
theorem decode_threshold_bound :
    (0.0031308 : ℝ) ≤ ((0.04045 + 0.055) / 1.055 : ℝ) ^ (12 / 5 : ℝ) := by
  have h := le_rpow_of_pow_le 0.0031308 ((0.04045 + 0.055) / 1.055) 12 5 (by norm_num)
    (by norm_num) (by norm_num) (by norm_num)
  norm_num at h ⊢
  exact h

theorem decode_threshold_slope :
    (0.0346 : ℝ) ≤ ((0.04045 + 0.055) / 1.055 : ℝ) ^ (7 / 5 : ℝ) := by
  have h := le_rpow_of_pow_le 0.0346 ((0.04045 + 0.055) / 1.055) 7 5 (by norm_num)
    (by norm_num) (by norm_num) (by norm_num)
  norm_num at h ⊢
  exact h

theorem gammaDecode_of_le (c : ℝ) (hc : c ≤ 0.04045) : gammaDecode c = c / 12.92 := by
  unfold gammaDecode
  rw [if_neg (not_lt.mpr hc)]

theorem gammaDecode_of_gt (c : ℝ) (hc : 0.04045 < c) :
    gammaDecode c = ((c + 0.055) / 1.055) ^ (12 / 5 : ℝ) := by
  unfold gammaDecode std.pow
  rw [if_pos hc]
  norm_num

/-- The tangent bound for the concave power `5/12`: for `0 < a ≤ x`,
`x ^ (5/12) ≤ a ^ (5/12) * (1 + (5/12) * (x - a) / a)`. -/
theorem rpow_tangent (a x : ℝ) (ha : 0 < a) (hax : a ≤ x) :
    x ^ (5 / 12 : ℝ) ≤ a ^ (5 / 12 : ℝ) * (1 + 5 / 12 * ((x - a) / a)) := by
  have hs : 0 ≤ (x - a) / a := div_nonneg (by linarith) ha.le
  have hx : x = a * (1 + (x - a) / a) := by
    field_simp
  have h1 := @rpow_one_add_le_one_add_mul_self ((x - a) / a) (by linarith) (5 / 12)
    (by norm_num) (by norm_num)
  have h2 : x ^ (5 / 12 : ℝ) = a ^ (5 / 12 : ℝ) * (1 + (x - a) / a) ^ (5 / 12 : ℝ) := by
    nth_rewrite 1 [hx]
    exact Real.mul_rpow ha.le (by linarith)
  rw [h2]
  exact mul_le_mul_of_nonneg_left h1 (Real.rpow_nonneg ha.le _)

/-- The gamma encoding undoes the gamma decoding up to the error of its argument: if `x`
exceeds the decoded channel by at most `4.5e-6`, the encoded `x` exceeds the channel by at
most `6e-5` and falls short of it by at most `1e-6`. -/
theorem gammaEncode_near (c x : ℝ) (h0 : 0 ≤ c) (h1 : c ≤ 1) (hx0 : gammaDecode c ≤ x)
    (hx1 : x ≤ gammaDecode c + 0.0000045) :
    c - 0.000001 ≤ gammaEncode x ∧ gammaEncode x ≤ c + 0.00006 := by
  obtain ⟨hu1, hu2⟩ := threshold_rpow_bounds
  by_cases hc : 0.04045 < c
  · rw [gammaDecode_of_gt c hc] at hx0 hx1
    have hw0 : ((0.04045 + 0.055) / 1.055 : ℝ) < (c + 0.055) / 1.055 := by
      apply div_lt_div_of_pos_right _ (by norm_num)
      linarith
    have hwpos : (0 : ℝ) < (c + 0.055) / 1.055 := lt_trans (by norm_num) hw0
    set w := (c + 0.055) / 1.055 with hwdef
    have hc_eq : c = 1.055 * w - 0.055 := by
      rw [hwdef]
      field_simp
    have hLT : (0.0031308 : ℝ) < w ^ (12 / 5 : ℝ) :=
      lt_of_le_of_lt decode_threshold_bound
        (Real.rpow_lt_rpow (by norm_num) hw0 (by norm_num))
    have hLpos : (0 : ℝ) < w ^ (12 / 5 : ℝ) := lt_trans (by norm_num) hLT
    have hLp : (w ^ (12 / 5 : ℝ)) ^ (5 / 12 : ℝ) = w := by
      rw [← Real.rpow_mul hwpos.le]
      norm_num
    have hslope : (0.0346 : ℝ) ≤ w ^ (7 / 5 : ℝ) :=
      le_trans decode_threshold_slope (Real.rpow_le_rpow (by norm_num) hw0.le (by norm_num))
    have hLw : w ^ (12 / 5 : ℝ) = w * w ^ (7 / 5 : ℝ) := by
      have h := Real.rpow_add hwpos 1 (7 / 5)
      rw [Real.rpow_one] at h
      rw [← h]
      norm_num
    have hxT : (0.0031308 : ℝ) < x := lt_of_lt_of_le hLT hx0
    rw [gammaEncode_of_gt x hxT]
    have hlow : w ≤ x ^ (5 / 12 : ℝ) := by
      have h := Real.rpow_le_rpow hLpos.le hx0 (by norm_num : (0 : ℝ) ≤ 5 / 12)
      rw [hLp] at h
      exact h
    have hup := rpow_tangent (w ^ (12 / 5 : ℝ)) x hLpos hx0
    rw [hLp] at hup
    have hquot : w * ((x - w ^ (12 / 5 : ℝ)) / w ^ (12 / 5 : ℝ)) ≤ 0.0000045 / 0.0346 := by
      rw [hLw] at hx1 ⊢
      have hd : 0 ≤ x - w * w ^ (7 / 5 : ℝ) := by
        rw [← hLw]
        linarith
      have e : w * ((x - w * w ^ (7 / 5 : ℝ)) / (w * w ^ (7 / 5 : ℝ)))
          = (x - w * w ^ (7 / 5 : ℝ)) / w ^ (7 / 5 : ℝ) := by
        field_simp
        ring
      rw [e]
      exact div_le_div₀ (by norm_num) (by linarith) (by norm_num) hslope
    constructor
    · linarith
    · have h3 : x ^ (5 / 12 : ℝ) ≤ w + 5 / 12 * (0.0000045 / 0.0346) := by
        have : w * (1 + 5 / 12 * ((x - w ^ (12 / 5 : ℝ)) / w ^ (12 / 5 : ℝ)))
            = w + 5 / 12 * (w * ((x - w ^ (12 / 5 : ℝ)) / w ^ (12 / 5 : ℝ))) := by ring
        rw [this] at hup
        linarith
      have h4 : (1.055 : ℝ) * (5 / 12 * (0.0000045 / 0.0346)) ≤ 0.00006 := by norm_num
      linarith
  · have hc' : c ≤ 0.04045 := not_lt.mp hc
    rw [gammaDecode_of_le c hc'] at hx0 hx1
    have hcx : c ≤ 12.92 * x := by
      have := (div_le_iff₀ (by norm_num : (0 : ℝ) < 12.92)).mp hx0
      linarith
    have hxc : 12.92 * x ≤ c + 12.92 * 0.0000045 := by
      have h : x - 0.0000045 ≤ c / 12.92 := by linarith
      have := (le_div_iff₀ (by norm_num : (0 : ℝ) < 12.92)).mp h
      linarith
    by_cases hxT : x ≤ 0.0031308
    · rw [gammaEncode_of_le x hxT]
      constructor
      · linarith
      · have : (12.92 : ℝ) * 0.0000045 ≤ 0.00006 := by norm_num
        linarith
    · have hxT' : (0.0031308 : ℝ) < x := not_le.mp hxT
      rw [gammaEncode_of_gt x hxT']
      have hlow : (0.0031308 : ℝ) ^ (5 / 12 : ℝ) ≤ x ^ (5 / 12 : ℝ) :=
        Real.rpow_le_rpow (by norm_num) hxT'.le (by norm_num)
      have hup := rpow_tangent 0.0031308 x (by norm_num) hxT'.le
      have hfac : 0 ≤ 1 + 5 / 12 * ((x - 0.0031308) / 0.0031308) := by
        have : 0 ≤ (x - 0.0031308) / 0.0031308 := div_nonneg (by linarith) (by norm_num)
        linarith
      have hup2 : x ^ (5 / 12 : ℝ)
          ≤ 0.0904739 * (1 + 5 / 12 * ((x - 0.0031308) / 0.0031308)) :=
        le_trans hup (mul_le_mul_of_nonneg_right hu2 hfac)
      constructor
      · linarith
      · have e : (0.0904739 : ℝ) * (1 + 5 / 12 * ((x - 0.0031308) / 0.0031308))
            = 0.0904739 + 0.0904739 * (5 / 12) / 0.0031308 * (x - 0.0031308) := by
          field_simp
          ring
        rw [e] at hup2
        have hs : (1.055 : ℝ) * (0.0904739 * (5 / 12) / 0.0031308) ≤ 12.92 := by norm_num
        nlinarith

/-- Decoded channels of an in-range colour are in range. -/
theorem gammaDecode_range (c : ℝ) (h0 : 0 ≤ c) (h1 : c ≤ 1) :
    0 ≤ gammaDecode c ∧ gammaDecode c ≤ 1 := by
  by_cases hc : 0.04045 < c
  · rw [gammaDecode_of_gt c hc]
    have hw0 : (0 : ℝ) ≤ (c + 0.055) / 1.055 := div_nonneg (by linarith) (by norm_num)
    have hw1 : (c + 0.055) / 1.055 ≤ 1 := by
      rw [div_le_one (by norm_num)]
      linarith
    exact ⟨Real.rpow_nonneg hw0 _, Real.rpow_le_one hw0 hw1 (by norm_num)⟩
  · rw [gammaDecode_of_le c (not_lt.mp hc)]
    constructor
    · exact div_nonneg h0 (by norm_num)
    · rw [div_le_one (by norm_num)]
      linarith

/-- An encoded channel overflows by at most `5e-6` when its argument overflows by at most
`4.5e-6`. -/
theorem gammaEncode_le (x : ℝ) (hx : x ≤ 1 + 0.0000045) : gammaEncode x ≤ 1.000005 := by
  by_cases hxT : x ≤ 0.0031308
  · rw [gammaEncode_of_le x hxT]
    linarith
  · have hxT' : (0.0031308 : ℝ) < x := not_le.mp hxT
    have hx0 : (0 : ℝ) ≤ x := le_trans (by norm_num) hxT'.le
    rw [gammaEncode_of_gt x hxT']
    by_cases hx1 : x ≤ 1
    · have := Real.rpow_le_one hx0 hx1 (by norm_num : (0 : ℝ) ≤ 5 / 12)
      linarith
    · have h := Real.rpow_le_rpow_of_exponent_le (not_le.mp hx1).le
        (by norm_num : (5 / 12 : ℝ) ≤ 1)
      rw [Real.rpow_one] at h
      linarith

/-- The overflow step moves a channel that is within `[c - 1e-6, c + 6e-5]` of a target
`c` in `[0, 1]` by at most `5e-6` more. -/
theorem scaled_channel_near (v mx c : ℝ) (hc0 : 0 ≤ c) (hv0 : c - 0.000001 ≤ v)
    (hv1 : v ≤ c + 0.00006) (hm0 : 1 < mx) (hm1 : mx ≤ 1.000005) (hvm : v ≤ mx) :
    |v / mx - c| ≤ 0.0001 := by
  have hmpos : 0 < mx := by linarith
  rw [abs_le]
  constructor
  · rw [le_sub_iff_add_le, le_div_iff₀ hmpos]
    nlinarith
  · rw [sub_le_iff_le_add, div_le_iff₀ hmpos]
    nlinarith

theorem scaleDown_near (r g b cr cg cb : ℝ)
    (hcr : 0 ≤ cr) (hcg : 0 ≤ cg) (hcb : 0 ≤ cb)
    (hr0 : cr - 0.000001 ≤ r) (hr1 : r ≤ cr + 0.00006) (hr2 : r ≤ 1.000005)
    (hg0 : cg - 0.000001 ≤ g) (hg1 : g ≤ cg + 0.00006) (hg2 : g ≤ 1.000005)
    (hb0 : cb - 0.000001 ≤ b) (hb1 : b ≤ cb + 0.00006) (hb2 : b ≤ 1.000005) :
    |(scaleDown r g b)._r - cr| ≤ 0.0001 ∧ |(scaleDown r g b)._g - cg| ≤ 0.0001 ∧
    |(scaleDown r g b)._b - cb| ≤ 0.0001 := by
  have hmx : std.max r (std.max g b) = max r (max g b) := by
    rw [std_max_eq, std_max_eq]
  unfold scaleDown
  rw [hmx]
  by_cases hm : max r (max g b) > 1.0
  · rw [if_pos hm]
    have hm0 : 1 < max r (max g b) := by
      norm_num at hm
      norm_num
      exact hm
    have hm1 : max r (max g b) ≤ 1.000005 := max_le hr2 (max_le hg2 hb2)
    exact ⟨scaled_channel_near r _ cr hcr hr0 hr1 hm0 hm1 (le_max_left _ _),
      scaled_channel_near g _ cg hcg hg0 hg1 hm0 hm1
        (le_trans (le_max_left _ _) (le_max_right _ _)),
      scaled_channel_near b _ cb hcb hb0 hb1 hm0 hm1
        (le_trans (le_max_right _ _) (le_max_right _ _))⟩
  · rw [if_neg hm]
    refine ⟨abs_le.mpr ⟨?_, ?_⟩, abs_le.mpr ⟨?_, ?_⟩, abs_le.mpr ⟨?_, ?_⟩⟩ <;>
      simp only <;> linarith

/-- The round trip through XYZ moves each channel of an in-range colour by at most
`1e-4`. -/
theorem RGB.toRGB_toXYZ_near (c : RGB) (hr : 0 ≤ c._r ∧ c._r ≤ 1) (hg : 0 ≤ c._g ∧ c._g ≤ 1)
    (hb : 0 ≤ c._b ∧ c._b ≤ 1) :
    |c.toXYZ.toRGB._r - c._r| ≤ 0.0001 ∧ |c.toXYZ.toRGB._g - c._g| ≤ 0.0001 ∧
    |c.toXYZ.toRGB._b - c._b| ≤ 0.0001 := by
  obtain ⟨hR0, hR1⟩ := gammaDecode_range c._r hr.1 hr.2
  obtain ⟨hG0, hG1⟩ := gammaDecode_range c._g hg.1 hg.2
  obtain ⟨hB0, hB1⟩ := gammaDecode_range c._b hb.1 hb.2
  rw [RGB.toXYZ_channels, XYZ.toRGB_eq]
  simp only
  set R := gammaDecode c._r
  set G := gammaDecode c._g
  set B := gammaDecode c._b
  have hxr0 : R ≤ (R * 0.4124 + G * 0.3576 + B * 0.1805) * 3.24063
      + (R * 0.2126 + G * 0.7152 + B * 0.0722) * -1.53721
      + (R * 0.0193 + G * 0.1192 + B * 0.9505) * -0.498629 := by
    norm_num
    linarith
  have hxr1 : (R * 0.4124 + G * 0.3576 + B * 0.1805) * 3.24063
      + (R * 0.2126 + G * 0.7152 + B * 0.0722) * -1.53721
      + (R * 0.0193 + G * 0.1192 + B * 0.9505) * -0.498629 ≤ R + 0.0000045 := by
    norm_num
    linarith
  have hxg0 : G ≤ (R * 0.4124 + G * 0.3576 + B * 0.1805) * -0.968931
      + (R * 0.2126 + G * 0.7152 + B * 0.0722) * 1.87576
      + (R * 0.0193 + G * 0.1192 + B * 0.9505) * 0.0415175 := by
    norm_num
    linarith
  have hxg1 : (R * 0.4124 + G * 0.3576 + B * 0.1805) * -0.968931
      + (R * 0.2126 + G * 0.7152 + B * 0.0722) * 1.87576
      + (R * 0.0193 + G * 0.1192 + B * 0.9505) * 0.0415175 ≤ G + 0.0000045 := by
    norm_num
    linarith
  have hxb0 : B ≤ (R * 0.4124 + G * 0.3576 + B * 0.1805) * 0.0557101
      + (R * 0.2126 + G * 0.7152 + B * 0.0722) * -0.204021
      + (R * 0.0193 + G * 0.1192 + B * 0.9505) * 1.0570 := by
    norm_num
    linarith
  have hxb1 : (R * 0.4124 + G * 0.3576 + B * 0.1805) * 0.0557101
      + (R * 0.2126 + G * 0.7152 + B * 0.0722) * -0.204021
      + (R * 0.0193 + G * 0.1192 + B * 0.9505) * 1.0570 ≤ B + 0.0000045 := by
    norm_num
    linarith
  obtain ⟨er0, er1⟩ := gammaEncode_near c._r _ hr.1 hr.2 hxr0 hxr1
  obtain ⟨eg0, eg1⟩ := gammaEncode_near c._g _ hg.1 hg.2 hxg0 hxg1
  obtain ⟨eb0, eb1⟩ := gammaEncode_near c._b _ hb.1 hb.2 hxb0 hxb1
  exact scaleDown_near _ _ _ _ _ _ hr.1 hg.1 hb.1 er0 er1 (gammaEncode_le _ (by linarith))
    eg0 eg1 (gammaEncode_le _ (by linarith)) eb0 eb1 (gammaEncode_le _ (by linarith))

/-- C4, amended. For every RGB triple with channels in `[0, 1]`, `RGB::toXYZ` followed
by `XYZ::toRGB` returns a triple each of whose channels differs from the original channel
by at most `1e-4`. -/
theorem rgb_xyz_roundtrip (c : RGB) (hr : 0 ≤ c._r ∧ c._r ≤ 1) (hg : 0 ≤ c._g ∧ c._g ≤ 1)
    (hb : 0 ≤ c._b ∧ c._b ≤ 1) :
    |c.toXYZ.toRGB._r - c._r| ≤ 0.0001 ∧ |c.toXYZ.toRGB._g - c._g| ≤ 0.0001 ∧
    |c.toXYZ.toRGB._b - c._b| ≤ 0.0001 :=
  c.toRGB_toXYZ_near hr hg hb

theorem rgb_xyz_roundtrip_witness :
    ((0 : ℝ) ≤ (⟨1, 0, 0⟩ : RGB)._r ∧ (⟨1, 0, 0⟩ : RGB)._r ≤ 1) ∧
    ((0 : ℝ) ≤ (⟨1, 0, 0⟩ : RGB)._g ∧ (⟨1, 0, 0⟩ : RGB)._g ≤ 1) ∧
    ((0 : ℝ) ≤ (⟨1, 0, 0⟩ : RGB)._b ∧ (⟨1, 0, 0⟩ : RGB)._b ≤ 1) ∧
    |(⟨1, 0, 0⟩ : RGB).toXYZ.toRGB._r - 1| ≤ 0.0001 ∧
    |(⟨1, 0, 0⟩ : RGB).toXYZ.toRGB._g - 0| ≤ 0.0001 ∧
    |(⟨1, 0, 0⟩ : RGB).toXYZ.toRGB._b - 0| ≤ 0.0001 :=
  ⟨by norm_num, by norm_num, by norm_num,
    rgb_xyz_roundtrip ⟨1, 0, 0⟩ (by norm_num) (by norm_num) (by norm_num)⟩

/-! ## Neutral colours in MSH -/

theorem CIELAB.toMSH_neutral_axis (l : ℝ) :
    (⟨l, 0, 0⟩ : CIELAB).toMSH = ⟨|l|, if l < -0.001 then Real.pi else 0, 0⟩ := by
  have hm : Real.sqrt (l * l + 0 * 0 + 0 * 0) = |l| := by
    rw [mul_zero, add_zero, add_zero]
    exact Real.sqrt_mul_self_eq_abs l
  simp only [CIELAB.toMSH, std.sqrt, std.acos, std.atan2, hm]
  by_cases h1 : |l| > 0.001
  · rw [if_pos h1]
    by_cases hl : l < -0.001
    · have hneg : l < 0 := lt_trans hl (by norm_num)
      have hq : l / |l| = -1 := by
        rw [abs_of_neg hneg, div_neg, div_self (ne_of_lt hneg)]
      have hpi : Real.pi > 0.001 := by
        have := Real.pi_gt_three
        linarith
      rw [hq, Real.arccos_neg_one, if_pos hl, if_pos hpi]
      have harg : Complex.arg ⟨0, 0⟩ = 0 := Complex.arg_zero
      rw [harg]
    · have hpos : 0 < l := by
        rcases lt_or_le 0 l with h | h
        · exact h
        · exfalso
          rw [abs_of_nonpos h] at h1
          apply hl
          linarith
      have hq : l / |l| = 1 := by
        rw [abs_of_pos hpos, div_self (ne_of_gt hpos)]
      have h0 : ¬ ((0 : ℝ) > 0.001) := by norm_num
      rw [hq, Real.arccos_one, if_neg hl, if_neg h0]
      norm_num
  · rw [if_neg h1]
    have hl : ¬ l < -0.001 := by
      intro hl
      apply h1
      have hneg : l < 0 := lt_trans hl (by norm_num)
      rw [abs_of_neg hneg]
      linarith
    have h0 : ¬ ((0.0 : ℝ) > 0.001) := by norm_num
    rw [if_neg hl, if_neg h0]
    norm_num

/-- C11, as stated, fails: a neutral colour of negative lightness is stored with
saturation `pi`, not `0`. -/
theorem toMSH_achromatic_counterexample :
    ¬ ∀ l : ℝ, (⟨l, 0, 0⟩ : CIELAB).toMSH._m = |l| ∧ (⟨l, 0, 0⟩ : CIELAB).toMSH._s = 0 ∧
        (⟨l, 0, 0⟩ : CIELAB).toMSH._h = 0 := by
  intro h
  have h1 := (h (-1)).2.1
  rw [CIELAB.toMSH_neutral_axis] at h1
  norm_num at h1
  exact Real.pi_ne_zero h1

/-- C11, amended. On `(l, 0, 0)` the method `CIELAB::toMSH` yields magnitude `|l|` and hue
`0` for every real `l`, and saturation `0` whenever `l ≥ -0.001`; for `l < -0.001` the
saturation is `pi`. -/
theorem toMSH_achromatic (l : ℝ) :
    (⟨l, 0, 0⟩ : CIELAB).toMSH._m = |l| ∧
    (⟨l, 0, 0⟩ : CIELAB).toMSH._s = (if l < -0.001 then Real.pi else 0) ∧
    (⟨l, 0, 0⟩ : CIELAB).toMSH._h = 0 := by
  rw [CIELAB.toMSH_neutral_axis]
  exact ⟨rfl, rfl, rfl⟩

/-! ## The floor of `XYZ::toRGB` -/

/-- C12 fails on the code: the statements `std::max(0.0, r);` discard their results, so a
negative channel is returned as it is. At XYZ `(0, 0, 0.001)` the red channel is
`-0.00644228668`. -/
theorem toRGB_negative_channel :
    (⟨0, 0, 0.001⟩ : XYZ).toRGB._r = -0.00644228668 ∧ (⟨0, 0, 0.001⟩ : XYZ).toRGB._r < 0 := by
  have h : (⟨0, 0, 0.001⟩ : XYZ).toRGB = ⟨-0.00644228668, 0.0005364061, 0.01365644⟩ := by
    rw [XYZ.toRGB_eq]
    rw [gammaEncode_of_le _ (by norm_num), gammaEncode_of_le _ (by norm_num),
      gammaEncode_of_le _ (by norm_num),
      scaleDown_of_le _ _ _ (by norm_num) (by norm_num) (by norm_num)]
    norm_num
  rw [h]
  norm_num

/-! ## Construction and `setMidpoint` -/

/-- C13. The constructor stores `min` and `max` and sets the midpoint to their mean;
`setMidpoint` replaces the midpoint and leaves every other member unchanged. -/
theorem constructor_and_setMidpoint (min max p : ℝ) (low0 high0 : MSH) (d : Diverging) :
    (Diverging.init min max low0 high0)._midPoint = (min + max) / 2 ∧
    (Diverging.init min max low0 high0)._min = min ∧
    (Diverging.init min max low0 high0)._max = max ∧
    (d.setMidpoint p)._midPoint = p ∧
    (d.setMidpoint p)._min = d._min ∧ (d.setMidpoint p)._max = d._max ∧
    (d.setMidpoint p)._low = d._low ∧ (d.setMidpoint p)._high = d._high := by
  refine ⟨?_, rfl, rfl, rfl, rfl, rfl, rfl, rfl⟩
  simp only [Diverging.init]
  norm_num
  ring

/-! ## Saturation levelling and the two halves of the domain -/

/-- C14. With both stored end points saturated, the colour at the midpoint is the
conversion of the neutral colour of magnitude `max (88, low.m, high.m)`. -/
theorem saturated_midpoint_is_grey (d : Diverging) (h2 : d._midPoint < d._max)
    (hl : d._low._s > 0.05) (hh : d._high._s > 0.05) :
    d.colormap d._midPoint
      = (⟨max 88.0 (max d._low._m d._high._m), 0, 0⟩ : MSH).toRGB := by
  have h0 : (0 : ℝ) = 0.0 := by norm_num
  rw [d.colormap_midPoint, d.controlPoints_false_fst_of_saturated hl hh,
    MSH.toRGB_of_zero_saturation, std_max_eq, std_max_eq]
  nth_rewrite 3 [h0]
  rw [MSH.toRGB_of_zero_saturation]

theorem saturated_midpoint_is_grey_witness :
    (sampleMap ⟨80, 1.08, -1.1⟩ ⟨80, 1.08, 0.5⟩)._midPoint
      < (sampleMap ⟨80, 1.08, -1.1⟩ ⟨80, 1.08, 0.5⟩)._max ∧
    (sampleMap ⟨80, 1.08, -1.1⟩ ⟨80, 1.08, 0.5⟩)._low._s > 0.05 ∧
    (sampleMap ⟨80, 1.08, -1.1⟩ ⟨80, 1.08, 0.5⟩)._high._s > 0.05 ∧
    (sampleMap ⟨80, 1.08, -1.1⟩ ⟨80, 1.08, 0.5⟩).colormap 1 = (⟨88, 0, 0⟩ : MSH).toRGB := by
  have h := saturated_midpoint_is_grey (sampleMap ⟨80, 1.08, -1.1⟩ ⟨80, 1.08, 0.5⟩)
    (by norm_num [sampleMap]) (by norm_num [sampleMap]) (by norm_num [sampleMap])
  have hm : max (88.0 : ℝ) (max 80 80) = 88 := by norm_num
  simp only [sampleMap, hm] at h
  exact ⟨by norm_num [sampleMap], by norm_num [sampleMap], by norm_num [sampleMap], h⟩

/-- Without saturation levelling the control points do not depend on the branch. -/
theorem Diverging.controlPoints_of_not_levelled (d : Diverging) (below : Bool)
    (hs : d._low._s ≤ 0.05 ∨ d._high._s ≤ 0.05) :
    d.controlPoints below = d.controlPoints false := by
  have hb : ¬ (d._low._s > 0.05 ∧ d._high._s > 0.05) := by
    intro h
    rcases hs with h1 | h1
    · linarith [h.1]
    · linarith [h.2]
  simp only [Diverging.controlPoints, if_neg hb]

theorem Diverging.norm_lower_ramp (d : Diverging) (h1 : d._min < d._midPoint) (t : ℝ)
    (ht0 : 0 ≤ t) (ht1 : t < 1) :
    d._min + t * (d._midPoint - d._min) < d._midPoint ∧
    d.norm (d._min + t * (d._midPoint - d._min)) = t := by
  have hd : 0 < d._midPoint - d._min := by linarith
  have hlt : d._min + t * (d._midPoint - d._min) < d._midPoint := by nlinarith
  refine ⟨hlt, ?_⟩
  rw [d.norm_below _ hlt]
  have e : (d._min + t * (d._midPoint - d._min) - d._min) / (d._midPoint - d._min) = t := by
    field_simp
  rw [e, min_eq_right ht1.le, max_eq_right ht0]

theorem Diverging.norm_upper_ramp (d : Diverging) (h2 : d._midPoint < d._max) (t : ℝ)
    (ht0 : 0 ≤ t) (ht1 : t < 1) :
    d._midPoint ≤ d._midPoint + t * (d._max - d._midPoint) ∧
    d.norm (d._midPoint + t * (d._max - d._midPoint)) = t := by
  have hd : 0 < d._max - d._midPoint := by linarith
  have hle : d._midPoint ≤ d._midPoint + t * (d._max - d._midPoint) := by nlinarith
  refine ⟨hle, ?_⟩
  rw [d.norm_above _ hle]
  have e : (d._midPoint + t * (d._max - d._midPoint) - d._midPoint) / (d._max - d._midPoint)
      = t := by
    field_simp
  rw [e, min_eq_right ht1.le, max_eq_right ht0]

/-- C15. Without saturation levelling the lower and the upper half of the domain trace
the same colour ramp, and the colour at the midpoint is the colour at `_min`. -/
theorem halves_trace_same_ramp (d : Diverging)
    (h1 : d._min < d._midPoint) (h2 : d._midPoint < d._max)
    (hs : d._low._s ≤ 0.05 ∨ d._high._s ≤ 0.05) :
    (∀ t : ℝ, 0 ≤ t → t < 1 →
      d.colormap (d._min + t * (d._midPoint - d._min))
        = d.colormap (d._midPoint + t * (d._max - d._midPoint))) ∧
    d.colormap d._midPoint = d.colormap d._min := by
  constructor
  · intro t ht0 ht1
    obtain ⟨hlt, hn1⟩ := d.norm_lower_ramp h1 t ht0 ht1
    obtain ⟨hle, hn2⟩ := d.norm_upper_ramp h2 t ht0 ht1
    rw [d.colormap_eq_branchColour, d.colormap_eq_branchColour, hn1, hn2,
      decide_eq_true hlt, decide_eq_false (not_lt.mpr hle)]
    unfold Diverging.branchColour
    rw [d.controlPoints_of_not_levelled true hs]
  · rw [d.colormap_eq_branchColour, d.colormap_eq_branchColour d._min, d.norm_midPoint,
      d.norm_of_le_min _ h1 le_rfl, decide_eq_true h1, decide_eq_false (lt_irrefl _)]
    unfold Diverging.branchColour
    rw [d.controlPoints_of_not_levelled true hs]

theorem halves_trace_same_ramp_witness :
    (sampleMap ⟨1, 0.04, 0⟩ ⟨2, 1, Real.pi⟩)._min
      < (sampleMap ⟨1, 0.04, 0⟩ ⟨2, 1, Real.pi⟩)._midPoint ∧
    (sampleMap ⟨1, 0.04, 0⟩ ⟨2, 1, Real.pi⟩)._midPoint
      < (sampleMap ⟨1, 0.04, 0⟩ ⟨2, 1, Real.pi⟩)._max ∧
    (sampleMap ⟨1, 0.04, 0⟩ ⟨2, 1, Real.pi⟩)._low._s ≤ 0.05 ∧
    (sampleMap ⟨1, 0.04, 0⟩ ⟨2, 1, Real.pi⟩).colormap (1 / 2)
      = (sampleMap ⟨1, 0.04, 0⟩ ⟨2, 1, Real.pi⟩).colormap (3 / 2) ∧
    (sampleMap ⟨1, 0.04, 0⟩ ⟨2, 1, Real.pi⟩).colormap 1
      = (sampleMap ⟨1, 0.04, 0⟩ ⟨2, 1, Real.pi⟩).colormap 0 := by
  have h := halves_trace_same_ramp (sampleMap ⟨1, 0.04, 0⟩ ⟨2, 1, Real.pi⟩)
    (by norm_num [sampleMap]) (by norm_num [sampleMap]) (Or.inl (by norm_num [sampleMap]))
  have ht := h.1 (1 / 2) (by norm_num) (by norm_num)
  have e1 : (sampleMap ⟨1, 0.04, 0⟩ ⟨2, 1, Real.pi⟩)._min
      + 1 / 2 * ((sampleMap ⟨1, 0.04, 0⟩ ⟨2, 1, Real.pi⟩)._midPoint
        - (sampleMap ⟨1, 0.04, 0⟩ ⟨2, 1, Real.pi⟩)._min) = 1 / 2 := by
    norm_num [sampleMap]
  have e2 : (sampleMap ⟨1, 0.04, 0⟩ ⟨2, 1, Real.pi⟩)._midPoint
      + 1 / 2 * ((sampleMap ⟨1, 0.04, 0⟩ ⟨2, 1, Real.pi⟩)._max
        - (sampleMap ⟨1, 0.04, 0⟩ ⟨2, 1, Real.pi⟩)._midPoint) = 3 / 2 := by
    norm_num [sampleMap]
  rw [e1, e2] at ht
  exact ⟨by norm_num [sampleMap], by norm_num [sampleMap], by norm_num [sampleMap], ht, h.2⟩

theorem Diverging.norm_range (d : Diverging) (v : ℝ) : 0 ≤ d.norm v ∧ d.norm v ≤ 1 := by
  unfold Diverging.norm
  simp only [std_max_eq, std_min_eq]
  constructor
  · exact le_trans (by norm_num) (le_max_left _ _)
  · exact max_le (by norm_num) (le_trans (min_le_left _ _) (by norm_num))

/-- A convex combination lies between its two end values. -/
theorem convex_between (a b t : ℝ) (ht0 : 0 ≤ t) (ht1 : t ≤ 1) :
    min a b ≤ t * b + (1.0 - t) * a ∧ t * b + (1.0 - t) * a ≤ max a b := by
  have e : t * b + (1.0 - t) * a = t * b + (1 - t) * a := by norm_num
  rw [e]
  constructor
  · rcases le_total a b with h | h
    · rw [min_eq_left h]
      nlinarith
    · rw [min_eq_right h]
      nlinarith
  · rcases le_total a b with h | h
    · rw [max_eq_right h]
      nlinarith
    · rw [max_eq_left h]
      nlinarith

/-- C18. The blend factor lies in `[0, 1]` for every input, so each component of the
interpolated colour lies between the components of the two control points. -/
theorem blend_is_convex (d : Diverging) (h1 : d._min < d._midPoint)
    (h2 : d._midPoint < d._max) (v : ℝ) :
    0 ≤ d.norm v ∧ d.norm v ≤ 1 ∧
    d.colormap v = (Diverging.interpolate (d.controlPoints (decide (v < d._midPoint))).1
      (d.controlPoints (decide (v < d._midPoint))).2 (d.norm v)).toRGB ∧
    (min (d.controlPoints (decide (v < d._midPoint))).1._m
        (d.controlPoints (decide (v < d._midPoint))).2._m
      ≤ (Diverging.interpolate (d.controlPoints (decide (v < d._midPoint))).1
          (d.controlPoints (decide (v < d._midPoint))).2 (d.norm v))._m ∧
     (Diverging.interpolate (d.controlPoints (decide (v < d._midPoint))).1
          (d.controlPoints (decide (v < d._midPoint))).2 (d.norm v))._m
      ≤ max (d.controlPoints (decide (v < d._midPoint))).1._m
        (d.controlPoints (decide (v < d._midPoint))).2._m) ∧
    (min (d.controlPoints (decide (v < d._midPoint))).1._s
        (d.controlPoints (decide (v < d._midPoint))).2._s
      ≤ (Diverging.interpolate (d.controlPoints (decide (v < d._midPoint))).1
          (d.controlPoints (decide (v < d._midPoint))).2 (d.norm v))._s ∧
     (Diverging.interpolate (d.controlPoints (decide (v < d._midPoint))).1
          (d.controlPoints (decide (v < d._midPoint))).2 (d.norm v))._s
      ≤ max (d.controlPoints (decide (v < d._midPoint))).1._s
        (d.controlPoints (decide (v < d._midPoint))).2._s) ∧
    (min (d.controlPoints (decide (v < d._midPoint))).1._h
        (d.controlPoints (decide (v < d._midPoint))).2._h
      ≤ (Diverging.interpolate (d.controlPoints (decide (v < d._midPoint))).1
          (d.controlPoints (decide (v < d._midPoint))).2 (d.norm v))._h ∧
     (Diverging.interpolate (d.controlPoints (decide (v < d._midPoint))).1
          (d.controlPoints (decide (v < d._midPoint))).2 (d.norm v))._h
      ≤ max (d.controlPoints (decide (v < d._midPoint))).1._h
        (d.controlPoints (decide (v < d._midPoint))).2._h) := by
  obtain ⟨hn0, hn1⟩ := d.norm_range v
  exact ⟨hn0, hn1, d.colormap_eq_branchColour v, convex_between _ _ _ hn0 hn1,
    convex_between _ _ _ hn0 hn1, convex_between _ _ _ hn0 hn1⟩

theorem blend_is_convex_witness :
    (sampleMap ⟨1, 0, 0⟩ ⟨2, 1, 0⟩)._min < (sampleMap ⟨1, 0, 0⟩ ⟨2, 1, 0⟩)._midPoint ∧
    (sampleMap ⟨1, 0, 0⟩ ⟨2, 1, 0⟩)._midPoint < (sampleMap ⟨1, 0, 0⟩ ⟨2, 1, 0⟩)._max ∧
    0 ≤ (sampleMap ⟨1, 0, 0⟩ ⟨2, 1, 0⟩).norm 5 ∧ (sampleMap ⟨1, 0, 0⟩ ⟨2, 1, 0⟩).norm 5 ≤ 1 :=
  ⟨by norm_num [sampleMap], by norm_num [sampleMap],
    (blend_is_convex (sampleMap ⟨1, 0, 0⟩ ⟨2, 1, 0⟩) (by norm_num [sampleMap])
      (by norm_num [sampleMap]) 5).1,
    (blend_is_convex (sampleMap ⟨1, 0, 0⟩ ⟨2, 1, 0⟩) (by norm_num [sampleMap])
      (by norm_num [sampleMap]) 5).2.1⟩

/-! ## The hue adjustment -/

/-- The control points are the levelled end points with the hue returned by the call
to `adjustHue`, if there is one. -/
theorem Diverging.controlPoints_eq_call (d : Diverging) (below : Bool) :
    d.controlPoints below =
      match d.adjustHueCall below with
      | none => d.levelled below
      | some (msh, u) =>
        if (d.levelled below).1._s < 0.05 ∧ (d.levelled below).2._s > 0.05 then
          (⟨(d.levelled below).1._m, (d.levelled below).1._s, adjustHue msh u⟩,
            (d.levelled below).2)
        else
          ((d.levelled below).1,
            ⟨(d.levelled below).2._m, (d.levelled below).2._s, adjustHue msh u⟩) := by
  have hlev : d.controlPoints below =
      if (d.levelled below).1._s < 0.05 ∧ (d.levelled below).2._s > 0.05 then
        (⟨(d.levelled below).1._m, (d.levelled below).1._s,
          adjustHue (d.levelled below).2 (d.levelled below).1._m⟩, (d.levelled below).2)
      else if (d.levelled below).2._s < 0.05 ∧ (d.levelled below).1._s > 0.05 then
        ((d.levelled below).1, ⟨(d.levelled below).2._m, (d.levelled below).2._s,
          adjustHue (d.levelled below).1 (d.levelled below).2._m⟩)
      else ((d.levelled below).1, (d.levelled below).2) := rfl
  rw [hlev]
  unfold Diverging.adjustHueCall
  by_cases h1 : (d.levelled below).1._s < 0.05 ∧ (d.levelled below).2._s > 0.05
  · simp only [if_pos h1]
  · by_cases h2 : (d.levelled below).2._s < 0.05 ∧ (d.levelled below).1._s > 0.05
    · simp only [if_neg h1, if_pos h2]
    · simp only [if_neg h1, if_neg h2]

/-- C16. The function `adjustHue` returns the hue unchanged when the magnitude is at
least the target; otherwise, for a positive magnitude and a saturation in `(0, pi)`, it
adds a strictly positive spin above the threshold `-pi/3` and subtracts it otherwise. -/
theorem adjustHue_spin (msh : MSH) (u : ℝ) :
    (msh._m ≥ u → adjustHue msh u = msh._h) ∧
    (0 < msh._m → msh._m < u → 0 < msh._s → msh._s < M_PI →
      0 < msh._s * std.sqrt (u ^ 2 - msh._m ^ 2) / (msh._m * std.sin msh._s) ∧
      adjustHue msh u =
        (if msh._h > -M_PI / 3 then
          msh._h + msh._s * std.sqrt (u ^ 2 - msh._m ^ 2) / (msh._m * std.sin msh._s)
         else
          msh._h - msh._s * std.sqrt (u ^ 2 - msh._m ^ 2) / (msh._m * std.sin msh._s)) ∧
      (msh._h > -M_PI / 3 → msh._h < adjustHue msh u) ∧
      (¬ msh._h > -M_PI / 3 → adjustHue msh u < msh._h)) := by
  constructor
  · intro h
    unfold adjustHue
    rw [if_pos h]
  · intro hm hmu hs hspi
    have hsq : 0 < u ^ 2 - msh._m ^ 2 := by nlinarith
    have hsin : 0 < std.sin msh._s := Real.sin_pos_of_pos_of_lt_pi hs hspi
    have hspin : 0 < msh._s * std.sqrt (u ^ 2 - msh._m ^ 2) / (msh._m * std.sin msh._s) :=
      div_pos (mul_pos hs (Real.sqrt_pos.mpr hsq)) (mul_pos hm hsin)
    have hval : adjustHue msh u =
        (if msh._h > -M_PI / 3 then
          msh._h + msh._s * std.sqrt (u ^ 2 - msh._m ^ 2) / (msh._m * std.sin msh._s)
         else
          msh._h - msh._s * std.sqrt (u ^ 2 - msh._m ^ 2) / (msh._m * std.sin msh._s)) := by
      unfold adjustHue
      rw [if_neg (not_le.mpr hmu)]
      have e : u * u - msh._m * msh._m = u ^ 2 - msh._m ^ 2 := by ring
      have e3 : -M_PI / 3.0 = -M_PI / 3 := by norm_num
      simp only [e, e3]
    refine ⟨hspin, hval, ?_, ?_⟩
    · intro hh
      rw [hval, if_pos hh]
      linarith
    · intro hh
      rw [hval, if_neg hh]
      linarith

theorem adjustHue_spin_witness :
    (0 : ℝ) < (⟨1, 1, 0⟩ : MSH)._m ∧ (⟨1, 1, 0⟩ : MSH)._m < 2 ∧
    (0 : ℝ) < (⟨1, 1, 0⟩ : MSH)._s ∧ (⟨1, 1, 0⟩ : MSH)._s < M_PI ∧
    (⟨1, 1, 0⟩ : MSH)._h < adjustHue ⟨1, 1, 0⟩ 2 := by
  have hpi : (1 : ℝ) < M_PI := by
    unfold M_PI
    have := Real.pi_gt_three
    linarith
  have hh : (⟨1, 1, 0⟩ : MSH)._h > -M_PI / 3 := by
    show (0 : ℝ) > -M_PI / 3
    linarith
  exact ⟨by norm_num, by norm_num, by norm_num, hpi,
    ((adjustHue_spin ⟨1, 1, 0⟩ 2).2 (by norm_num) (by norm_num) (by norm_num) hpi).2.2.1 hh⟩

/-! ## The overflow policy and the polar transform -/

theorem XYZ.toRGB_eq_scaleDown_encoded (p : XYZ) :
    p.toRGB = scaleDown p.encoded._r p.encoded._g p.encoded._b := rfl

/-- C17. The overflow policy of `XYZ::toRGB`: with `M` the largest gamma-encoded channel,
all three channels are divided by `M` when `M > 1` and returned unchanged otherwise; every
returned channel is at most `1`, and when `M > 1` the largest returned channel is `1`. -/
theorem overflow_policy (p : XYZ) :
    (max p.encoded._r (max p.encoded._g p.encoded._b) > 1 →
      p.toRGB = ⟨p.encoded._r / max p.encoded._r (max p.encoded._g p.encoded._b),
        p.encoded._g / max p.encoded._r (max p.encoded._g p.encoded._b),
        p.encoded._b / max p.encoded._r (max p.encoded._g p.encoded._b)⟩ ∧
      max p.toRGB._r (max p.toRGB._g p.toRGB._b) = 1) ∧
    (max p.encoded._r (max p.encoded._g p.encoded._b) ≤ 1 → p.toRGB = p.encoded) ∧
    p.toRGB._r ≤ 1 ∧ p.toRGB._g ≤ 1 ∧ p.toRGB._b ≤ 1 := by
  have hmx : std.max p.encoded._r (std.max p.encoded._g p.encoded._b)
      = max p.encoded._r (max p.encoded._g p.encoded._b) := by
    rw [std_max_eq, std_max_eq]
  have hr : p.encoded._r ≤ max p.encoded._r (max p.encoded._g p.encoded._b) :=
    le_max_left _ _
  have hg : p.encoded._g ≤ max p.encoded._r (max p.encoded._g p.encoded._b) :=
    le_trans (le_max_left _ _) (le_max_right _ _)
  have hb : p.encoded._b ≤ max p.encoded._r (max p.encoded._g p.encoded._b) :=
    le_trans (le_max_right _ _) (le_max_right _ _)
  have hbig : max p.encoded._r (max p.encoded._g p.encoded._b) > 1 →
      p.toRGB = ⟨p.encoded._r / max p.encoded._r (max p.encoded._g p.encoded._b),
        p.encoded._g / max p.encoded._r (max p.encoded._g p.encoded._b),
        p.encoded._b / max p.encoded._r (max p.encoded._g p.encoded._b)⟩ := by
    intro hM
    have hM' : max p.encoded._r (max p.encoded._g p.encoded._b) > 1.0 := by
      norm_num
      norm_num at hM
      exact hM
    rw [XYZ.toRGB_eq_scaleDown_encoded, scaleDown, hmx, if_pos hM']
  have hsmall : max p.encoded._r (max p.encoded._g p.encoded._b) ≤ 1 →
      p.toRGB = p.encoded := by
    intro hM
    have hM' : ¬ max p.encoded._r (max p.encoded._g p.encoded._b) > 1.0 := by
      norm_num
      norm_num at hM
      exact hM
    rw [XYZ.toRGB_eq_scaleDown_encoded, scaleDown, hmx, if_neg hM']
  refine ⟨fun hM => ⟨hbig hM, ?_⟩, hsmall, ?_⟩
  · have hpos : 0 < max p.encoded._r (max p.encoded._g p.encoded._b) := by linarith
    rw [hbig hM]
    simp only
    rw [max_div_div_right hpos.le, max_div_div_right hpos.le, div_self hpos.ne']
  · by_cases hM : max p.encoded._r (max p.encoded._g p.encoded._b) > 1
    · have hpos : 0 < max p.encoded._r (max p.encoded._g p.encoded._b) := by linarith
      rw [hbig hM]
      exact ⟨(div_le_one hpos).mpr hr, (div_le_one hpos).mpr hg, (div_le_one hpos).mpr hb⟩
    · have hM1 := not_lt.mp hM
      rw [hsmall hM1]
      exact ⟨le_trans hr hM1, le_trans hg hM1, le_trans hb hM1⟩

theorem XYZ.encoded_red_r :
    (⟨0.4124, 0.2126, 0.0193⟩ : XYZ).encoded._r = gammaEncode 1.0000014263 := by
  have hr : (0.4124 : ℝ) * 3.24063 + 0.2126 * -1.53721 + 0.0193 * -0.498629
      = 1.0000014263 := by norm_num
  show gammaEncode ((0.4124 : ℝ) * 3.24063 + 0.2126 * -1.53721 + 0.0193 * -0.498629)
    = gammaEncode 1.0000014263
  rw [hr]

theorem overflow_policy_witness :
    max (⟨0.4124, 0.2126, 0.0193⟩ : XYZ).encoded._r
      (max (⟨0.4124, 0.2126, 0.0193⟩ : XYZ).encoded._g
        (⟨0.4124, 0.2126, 0.0193⟩ : XYZ).encoded._b) > 1 ∧
    max (⟨0.4124, 0.2126, 0.0193⟩ : XYZ).toRGB._r
      (max (⟨0.4124, 0.2126, 0.0193⟩ : XYZ).toRGB._g
        (⟨0.4124, 0.2126, 0.0193⟩ : XYZ).toRGB._b) = 1 := by
  have hM : max (⟨0.4124, 0.2126, 0.0193⟩ : XYZ).encoded._r
      (max (⟨0.4124, 0.2126, 0.0193⟩ : XYZ).encoded._g
        (⟨0.4124, 0.2126, 0.0193⟩ : XYZ).encoded._b) > 1 := by
    apply lt_of_lt_of_le _ (le_max_left _ _)
    rw [XYZ.encoded_red_r]
    exact gammaEncode_red_bounds.1
  exact ⟨hM, ((overflow_policy ⟨0.4124, 0.2126, 0.0193⟩).1 hM).2⟩

/-- The ratio passed to `acos` is within `[-1, 1]` whenever the magnitude is positive. -/
theorem ratio_bounds (l a b : ℝ) (hm : 0 < Real.sqrt (l * l + a * a + b * b)) :
    -1 ≤ l / Real.sqrt (l * l + a * a + b * b) ∧
    l / Real.sqrt (l * l + a * a + b * b) ≤ 1 := by
  set m := Real.sqrt (l * l + a * a + b * b) with hmdef
  have hsq : m ^ 2 = l * l + a * a + b * b := by
    rw [hmdef, Real.sq_sqrt]
    nlinarith [mul_self_nonneg l, mul_self_nonneg a, mul_self_nonneg b]
  have hlm : |l| ≤ m := by
    apply abs_le_of_sq_le_sq _ hm.le
    nlinarith [sq_nonneg a, sq_nonneg b]
  constructor
  · rw [le_div_iff₀ hm]
    have := neg_abs_le l
    linarith
  · rw [div_le_one hm]
    exact le_trans (le_abs_self l) hlm

/-- C19. The method `CIELAB::toMSH` is well defined: the argument of `acos` is within
`[-1, 1]` whenever it is evaluated, and the result has `m ≥ 0`, `0 ≤ s ≤ pi` and
`-pi < h ≤ pi`. -/
theorem toMSH_well_defined (c : CIELAB) :
    (std.sqrt (c._l * c._l + c._a * c._a + c._b * c._b) > 0.001 →
      -1 ≤ c._l / std.sqrt (c._l * c._l + c._a * c._a + c._b * c._b) ∧
      c._l / std.sqrt (c._l * c._l + c._a * c._a + c._b * c._b) ≤ 1) ∧
    0 ≤ c.toMSH._m ∧ 0 ≤ c.toMSH._s ∧ c.toMSH._s ≤ M_PI ∧
    -M_PI < c.toMSH._h ∧ c.toMSH._h ≤ M_PI := by
  have hpi : (0 : ℝ) < Real.pi := Real.pi_pos
  refine ⟨?_, ?_, ?_, ?_, ?_, ?_⟩
  · intro hm
    exact ratio_bounds _ _ _ (lt_trans (by norm_num) hm)
  · exact Real.sqrt_nonneg _
  · simp only [CIELAB.toMSH, std.acos]
    split_ifs
    · exact Real.arccos_nonneg _
    · norm_num
  · simp only [CIELAB.toMSH, std.acos, M_PI]
    split_ifs
    · exact Real.arccos_le_pi _
    · norm_num
      exact hpi.le
  · simp only [CIELAB.toMSH, std.atan2, M_PI]
    split_ifs <;> first
      | exact Complex.neg_pi_lt_arg _
      | (norm_num; exact hpi)
  · simp only [CIELAB.toMSH, std.atan2, M_PI]
    split_ifs <;> first
      | exact Complex.arg_le_pi _
      | (norm_num; exact hpi.le)

theorem toMSH_well_defined_witness :
    std.sqrt ((⟨0, 1, 0⟩ : CIELAB)._l * (⟨0, 1, 0⟩ : CIELAB)._l
      + (⟨0, 1, 0⟩ : CIELAB)._a * (⟨0, 1, 0⟩ : CIELAB)._a
      + (⟨0, 1, 0⟩ : CIELAB)._b * (⟨0, 1, 0⟩ : CIELAB)._b) > 0.001 ∧
    (-1 ≤ (⟨0, 1, 0⟩ : CIELAB)._l / std.sqrt ((⟨0, 1, 0⟩ : CIELAB)._l * (⟨0, 1, 0⟩ : CIELAB)._l
      + (⟨0, 1, 0⟩ : CIELAB)._a * (⟨0, 1, 0⟩ : CIELAB)._a
      + (⟨0, 1, 0⟩ : CIELAB)._b * (⟨0, 1, 0⟩ : CIELAB)._b) ∧
     (⟨0, 1, 0⟩ : CIELAB)._l / std.sqrt ((⟨0, 1, 0⟩ : CIELAB)._l * (⟨0, 1, 0⟩ : CIELAB)._l
      + (⟨0, 1, 0⟩ : CIELAB)._a * (⟨0, 1, 0⟩ : CIELAB)._a
      + (⟨0, 1, 0⟩ : CIELAB)._b * (⟨0, 1, 0⟩ : CIELAB)._b) ≤ 1) :=
  ⟨by simp only [sqrt_sample]; norm_num,
    (toMSH_well_defined ⟨0, 1, 0⟩).1 (by simp only [sqrt_sample]; norm_num)⟩

/-! ## Safety of the calls to `adjustHue` -/

theorem labForward_ge (t : ℝ) (ht : 0 ≤ t) : 16 / 116 ≤ labForward t := by
  unfold labForward
  split_ifs with h
  · exact le_cbrt _ _ (by norm_num) (le_trans (by norm_num) h.le)
  · norm_num
    linarith

/-- The lightness of the CIELAB conversion of an in-range RGB colour is not negative. -/
theorem RGB.toCIELAB_l_nonneg (c : RGB) (hr : 0 ≤ c._r ∧ c._r ≤ 1)
    (hg : 0 ≤ c._g ∧ c._g ≤ 1) (hb : 0 ≤ c._b ∧ c._b ≤ 1) :
    0 ≤ c.toXYZ.toCIELAB._l := by
  obtain ⟨hR0, _⟩ := gammaDecode_range c._r hr.1 hr.2
  obtain ⟨hG0, _⟩ := gammaDecode_range c._g hg.1 hg.2
  obtain ⟨hB0, _⟩ := gammaDecode_range c._b hb.1 hb.2
  rw [RGB.toXYZ_channels, XYZ.toCIELAB_eq]
  simp only
  have hy : 0 ≤ (gammaDecode c._r * 0.2126 + gammaDecode c._g * 0.7152
      + gammaDecode c._b * 0.0722) / REF_Y := by
    apply div_nonneg _ (by norm_num [REF_Y])
    have h1 : 0 ≤ gammaDecode c._r * 0.2126 := mul_nonneg hR0 (by norm_num)
    have h2 : 0 ≤ gammaDecode c._g * 0.7152 := mul_nonneg hG0 (by norm_num)
    have h3 : 0 ≤ gammaDecode c._b * 0.0722 := mul_nonneg hB0 (by norm_num)
    linarith
  have h := labForward_ge _ hy
  norm_num
  linarith

/-- A stored colour of non-negative lightness and saturation above `0.05` can be passed
to `adjustHue`: its magnitude passes the guard, its saturation is at most `pi / 2`, and
the denominator of the spin is not zero. -/
theorem CIELAB.toMSH_safe (c : CIELAB) (hl : 0 ≤ c._l) (hs : 0.05 < c.toMSH._s) :
    c.toMSH._m > 0.001 ∧ c.toMSH._s ≤ M_PI / 2 ∧ c.toMSH._m * std.sin c.toMSH._s ≠ 0 := by
  have hm : std.sqrt (c._l * c._l + c._a * c._a + c._b * c._b) > 0.001 := by
    by_contra hcon
    have h0 : c.toMSH._s = 0.0 := by
      simp only [CIELAB.toMSH, if_neg hcon]
    rw [h0] at hs
    norm_num at hs
  have hmpos : 0 < Real.sqrt (c._l * c._l + c._a * c._a + c._b * c._b) :=
    lt_trans (by norm_num) hm
  have hseq := c.toMSH_s hm
  have hle : c.toMSH._s ≤ M_PI / 2 := by
    rw [hseq]
    unfold std.acos M_PI
    rw [Real.arccos_le_pi_div_two]
    exact div_nonneg hl hmpos.le
  have hsin : 0 < std.sin c.toMSH._s := by
    apply Real.sin_pos_of_pos_of_lt_pi (lt_trans (by norm_num) hs)
    have := Real.pi_pos
    unfold M_PI at hle
    linarith
  have hm' : c.toMSH._m > 0.001 := hm
  exact ⟨hm', hle, (mul_pos (lt_trans (by norm_num) hm') hsin).ne'⟩

theorem Diverging.levelled_fst (d : Diverging) (below : Bool) :
    (d.levelled below).1 = d._low ∨ (d.levelled below).1._s = 0.0 := by
  unfold Diverging.levelled
  by_cases hb : d._low._s > 0.05 ∧ d._high._s > 0.05
  · cases below
    · right
      simp only [if_pos hb, Bool.false_eq_true, if_false]
    · left
      simp only [if_pos hb, if_true]
  · left
    simp only [if_neg hb]

theorem Diverging.levelled_snd (d : Diverging) (below : Bool) :
    (d.levelled below).2 = d._high ∨ (d.levelled below).2._s = 0.0 := by
  unfold Diverging.levelled
  by_cases hb : d._low._s > 0.05 ∧ d._high._s > 0.05
  · cases below
    · left
      simp only [if_pos hb, Bool.false_eq_true, if_false]
    · right
      simp only [if_pos hb, if_true]
  · left
    simp only [if_neg hb]

/-- The colour passed to `adjustHue` is one of the two stored end points, never the grey
of saturation levelling, and its saturation exceeds `0.05`. -/
theorem Diverging.adjustHueCall_stored (d : Diverging) (below : Bool) (msh : MSH) (u : ℝ)
    (hcall : d.adjustHueCall below = some (msh, u)) :
    (msh = d._low ∨ msh = d._high) ∧ 0.05 < msh._s := by
  unfold Diverging.adjustHueCall at hcall
  simp only at hcall
  have h0 : ¬ ((0.0 : ℝ) > 0.05) := by norm_num
  by_cases h1 : (d.levelled below).1._s < 0.05 ∧ (d.levelled below).2._s > 0.05
  · rw [if_pos h1] at hcall
    have he := (Prod.mk.inj (Option.some.inj hcall)).1
    rw [← he]
    refine ⟨Or.inr ?_, h1.2⟩
    rcases d.levelled_snd below with h | h
    · exact h
    · exfalso
      have := h1.2
      rw [h] at this
      exact h0 this
  · rw [if_neg h1] at hcall
    by_cases h2 : (d.levelled below).2._s < 0.05 ∧ (d.levelled below).1._s > 0.05
    · rw [if_pos h2] at hcall
      have he := (Prod.mk.inj (Option.some.inj hcall)).1
      rw [← he]
      refine ⟨Or.inl ?_, h2.2⟩
      rcases d.levelled_fst below with h | h
      · exact h
      · exfalso
        have := h2.2
        rw [h] at this
        exact h0 this
    · rw [if_neg h2] at hcall
      exact absurd hcall (by simp)

/-- C20. For end points set from in-range RGB triples, every call that `colormap` makes
to `adjustHue` is safe: the colour passed has `m > 0.001` and `0.05 < s ≤ pi / 2`, the
denominator `m * sin s` is not zero, and on the spin branch the argument of the square
root is not negative. -/
theorem adjustHue_calls_safe (d : Diverging) (c1 c2 : RGB)
    (hr1 : 0 ≤ c1._r ∧ c1._r ≤ 1) (hg1 : 0 ≤ c1._g ∧ c1._g ≤ 1) (hb1 : 0 ≤ c1._b ∧ c1._b ≤ 1)
    (hr2 : 0 ≤ c2._r ∧ c2._r ≤ 1) (hg2 : 0 ≤ c2._g ∧ c2._g ≤ 1) (hb2 : 0 ≤ c2._b ∧ c2._b ≤ 1)
    (v : ℝ) (msh : MSH) (u : ℝ)
    (hcall : ((d.setLow c1._r c1._g c1._b).setHigh c2._r c2._g c2._b).adjustHueCall
      (decide (v < ((d.setLow c1._r c1._g c1._b).setHigh c2._r c2._g c2._b)._midPoint))
        = some (msh, u)) :
    msh._m > 0.001 ∧ 0.05 < msh._s ∧ msh._s ≤ M_PI / 2 ∧ msh._m * std.sin msh._s ≠ 0 ∧
    (msh._m < u → 0 ≤ u * u - msh._m * msh._m) := by
  obtain ⟨hwho, hs⟩ := Diverging.adjustHueCall_stored _ _ _ _ hcall
  have hlow : ((d.setLow c1._r c1._g c1._b).setHigh c2._r c2._g c2._b)._low
      = c1.toXYZ.toCIELAB.toMSH := rfl
  have hhigh : ((d.setLow c1._r c1._g c1._b).setHigh c2._r c2._g c2._b)._high
      = c2.toXYZ.toCIELAB.toMSH := rfl
  have hsafe : msh._m > 0.001 ∧ msh._s ≤ M_PI / 2 ∧ msh._m * std.sin msh._s ≠ 0 := by
    rcases hwho with h | h
    · rw [hlow] at h
      rw [h] at hs ⊢
      exact CIELAB.toMSH_safe _ (c1.toCIELAB_l_nonneg hr1 hg1 hb1) hs
    · rw [hhigh] at h
      rw [h] at hs ⊢
      exact CIELAB.toMSH_safe _ (c2.toCIELAB_l_nonneg hr2 hg2 hb2) hs
  refine ⟨hsafe.1, hs, hsafe.2.1, hsafe.2.2, ?_⟩
  intro hmu
  have hm0 : 0 < msh._m := lt_trans (by norm_num) hsafe.1
  nlinarith

theorem adjustHue_calls_safe_witness :
    (((sampleMap ⟨0, 0, 0⟩ ⟨0, 0, 0⟩).setLow 0 0 0).setHigh 1 0 0).adjustHueCall
        (decide ((1 / 2 : ℝ)
          < (((sampleMap ⟨0, 0, 0⟩ ⟨0, 0, 0⟩).setLow 0 0 0).setHigh 1 0 0)._midPoint))
      = some ((⟨1, 0, 0⟩ : RGB).toMSH, 0) ∧
    (⟨1, 0, 0⟩ : RGB).toMSH._m > 0.001 ∧ 0.05 < (⟨1, 0, 0⟩ : RGB).toMSH._s ∧
    (⟨1, 0, 0⟩ : RGB).toMSH._s ≤ M_PI / 2 := by
  have hlow : (((sampleMap ⟨0, 0, 0⟩ ⟨0, 0, 0⟩).setLow 0 0 0).setHigh 1 0 0)._low
      = ⟨0, 0, 0⟩ := RGB.toMSH_black
  have hhigh : (((sampleMap ⟨0, 0, 0⟩ ⟨0, 0, 0⟩).setLow 0 0 0).setHigh 1 0 0)._high
      = (⟨1, 0, 0⟩ : RGB).toMSH := rfl
  have hcall : (((sampleMap ⟨0, 0, 0⟩ ⟨0, 0, 0⟩).setLow 0 0 0).setHigh 1 0 0).adjustHueCall
        (decide ((1 / 2 : ℝ)
          < (((sampleMap ⟨0, 0, 0⟩ ⟨0, 0, 0⟩).setLow 0 0 0).setHigh 1 0 0)._midPoint))
      = some ((⟨1, 0, 0⟩ : RGB).toMSH, 0) := by
    have hn : ¬ ((0 : ℝ) > 0.05 ∧ (⟨1, 0, 0⟩ : RGB).toMSH._s > 0.05) := by norm_num
    have hp : ((0 : ℝ) < 0.05 ∧ (⟨1, 0, 0⟩ : RGB).toMSH._s > 0.05) :=
      ⟨by norm_num, red_stored.1⟩
    simp only [Diverging.adjustHueCall, Diverging.levelled, hlow, hhigh, if_neg hn, if_pos hp]
  have h := adjustHue_calls_safe (sampleMap ⟨0, 0, 0⟩ ⟨0, 0, 0⟩) ⟨0, 0, 0⟩ ⟨1, 0, 0⟩
    (by norm_num) (by norm_num) (by norm_num) (by norm_num) (by norm_num) (by norm_num)
    (1 / 2) _ _ hcall
  exact ⟨hcall, h.1, h.2.1, h.2.2.1⟩

end
